import Mathlib

/-!
Shallow embedding of import_opt.py: a line-oriented engine that rewrites
whole-module imports into direct symbol imports.

Strings are manipulated as lists of characters.  Python while-loops and
scan-loops are embedded with an explicit fuel argument that provably
suffices (the loop body strictly shrinks the scanned data); this keeps
every definition kernel-computable.  Python dicts are embedded as
association lists in insertion order (iteration order of a Python dict);
the one Python set that is iterated, places_used in _build_direct_imports,
has unspecified iteration order in Python, and is embedded in ascending
line order -- the final file contents are independent of that order since
the output maps are sorted before use.
-/

/-- Python str whitespace, as used by str.strip and str.rstrip. -/
def isSpacePy (c : Char) : Bool :=
  c = ' ' || c = '\t' || c = '\n' || c = '\r' || c = '\x0b' || c = '\x0c'

/-- line.rstrip() on a list of characters. -/
def rstripL (l : List Char) : List Char :=
  (l.reverse.dropWhile isSpacePy).reverse

/-- line.rstrip() -/
def rstrip (s : String) : String := String.mk (rstripL s.toList)

/-- line.lstrip() on a list of characters. -/
def lstripL (l : List Char) : List Char := l.dropWhile isSpacePy

/-- line.strip(): whitespace removed from both ends. -/
def stripBoth (s : String) : String := String.mk (lstripL (rstripL s.toList))

/-- A regex word character (the class used by the identifier pattern). -/
def isWordChar (c : Char) : Bool := c.isAlphanum || c = '_'

/-- s.split(sep) for a single-character separator, as in line.split on a comma. -/
def splitChar (sep : Char) : List Char → List (List Char)
  | [] => [[]]
  | c :: cs =>
    if c = sep then [] :: splitChar sep cs
    else (c :: (splitChar sep cs).headD []) :: (splitChar sep cs).tail

/-- s.split(sep) for a multi-character separator: leftmost, non-overlapping.
Fuel bounds the scan; fuel = length of the string suffices. -/
def splitOnLGo (sep : List Char) : Nat → List Char → List (List Char)
  | 0, s => [s]
  | Nat.succ k, s =>
    match s with
    | [] => [[]]
    | c :: rest =>
      if !sep.isEmpty && sep.isPrefixOf (c :: rest) then
        [] :: splitOnLGo sep k (List.drop sep.length (c :: rest))
      else
        match splitOnLGo sep k rest with
        | [] => [[c]]
        | piece :: more => (c :: piece) :: more

/-- s.split(sep) for a list-of-characters separator. -/
def splitOnL (sep s : List Char) : List (List Char) :=
  splitOnLGo sep s.length s

/-- sep.join(pieces) on lists of characters. -/
def joinSep (sep : List Char) : List (List Char) → List Char
  | [] => []
  | [x] => x
  | x :: y :: rest => x ++ sep ++ joinSep sep (y :: rest)

/-- One scan step of the identifier pattern findall: maximal runs of word
characters.  Fuel bounds the scan; fuel = length suffices. -/
def tokensGo : Nat → List Char → List String
  | 0, _ => []
  | Nat.succ _, [] => []
  | Nat.succ k, c :: cs =>
    if isWordChar c then
      String.mk ((c :: cs).takeWhile isWordChar)
        :: tokensGo k ((c :: cs).dropWhile isWordChar)
    else tokensGo k cs

/-- split(line) from the source: all identifiers occurring in the line,
in order, with multiplicity (identifiers_re.findall). -/
def splitIdents (line : String) : List String :=
  tokensGo line.toList.length line.toList

/-- p.startswith(q) -/
def startsWithL (p s : String) : Bool := p.toList.isPrefixOf s.toList

/-- p.endswith(q) -/
def endsWithL (p s : String) : Bool := p.toList.isSuffixOf s.toList

/-- enumerate(l) starting at n. -/
def enumFromL (n : Nat) : List α → List (Nat × α)
  | [] => []
  | a :: l => (n, a) :: enumFromL (n + 1) l

/-- enumerate(l) -/
def enumL (l : List α) : List (Nat × α) := enumFromL 0 l

/-- Reading a file in text mode and iterating its lines: split the content
on newline; a trailing newline does not produce an extra empty line.
A CRLF ending survives here as a trailing carriage return on the line,
which the subsequent rstrip removes, matching the combined effect of
universal-newline translation followed by rstrip in the source. -/
def readLines (content : String) : List String :=
  (if ((splitChar '\n' content.toList).getLastD [' ']).isEmpty
    then (splitChar '\n' content.toList).dropLast
    else splitChar '\n' content.toList).map String.mk

/-- extract_imports(line): the text after the import keyword, split on commas. -/
def extract_imports (line : String) : List String :=
  (splitChar ',' (line.toList.drop 7)).map String.mk

/-- One clause of an import line: split on the rename keyword; the module
path is the first piece, the alias the last piece. -/
def parseClause (word : String) : String × String :=
  let ws := (splitOnL " as ".toList word.toList).map String.mk
  (ws.headD "", ws.getLastD "")

/-- The positions recorded by _strip_comment_blocks for one delimiter:
a line whose stripped text equals the delimiter is recorded once; otherwise
a line that starts or ends with it is recorded once, and again when it both
starts and ends with it. -/
def commentMarks (delim : String) (data : List String) : List Nat :=
  ((enumL data).map (fun p =>
    let x := stripBoth p.2
    if x = delim then [p.1]
    else
      let s := startsWithL delim x
      let e := endsWithL delim x
      (if s || e then [p.1] else []) ++ (if s && e then [p.1] else []))).flatten

/-- Sequential pairing of recorded positions: 1st with 2nd, 3rd with 4th, ... -/
def pairRanges : List Nat → List (Nat × Nat)
  | a :: b :: rest => (a, b) :: pairRanges rest
  | _ => []

/-- _strip_comment_blocks: when the recorded count is even, delete from the
live set every line index inside an inclusive pair range; when odd, do
nothing.  The line buffer itself is never touched. -/
def strip_comment_blocks (delim : String) (data : List String)
    (lines : List (Nat × String)) : List (Nat × String) :=
  if (commentMarks delim data).length % 2 = 0 then
    lines.filter (fun p =>
      !((pairRanges (commentMarks delim data)).any
        (fun r => r.1 ≤ p.1 && p.1 ≤ r.2)))
  else lines

/-- The two block delimiter styles, processed in source order. -/
def tqDouble : String := "\"\"\""
def tqSingle : String := "\x27\x27\x27"

/-- _build_valid_lines: live lines are the non-empty lines not starting
with the line-comment marker, then both block-comment passes are applied. -/
def build_valid_lines (data : List String) : List (Nat × String) :=
  strip_comment_blocks tqSingle data
    (strip_comment_blocks tqDouble data
      ((enumL data).filter (fun p =>
        !(p.2.toList.isEmpty) && !(startsWithL "#" p.2))))

/-- _build_imports: for every live line starting with the import keyword
and a space, the list of (module path, alias) clauses, keyed by position. -/
def build_imports (lines : List (Nat × String)) :
    List (Nat × List (String × String)) :=
  (lines.filter (fun p => startsWithL "import " p.2)).map
    (fun p => (p.1, (extract_imports p.2).map parseClause))

/-- The reverse index inv_imports, as the association list of
(module path, position) pairs in insertion order; a dict built from this
list keeps the later binding for a repeated key. -/
def inv_imports_of (imports : List (Nat × List (String × String))) :
    List (String × Nat) :=
  ((imports.map (fun p => p.2.map (fun q => (q.1, p.1)))).flatten)

/-- Lookup in a Python dict built by successive insertion: the last
binding of the key wins. -/
def lookupLast (l : List (String × Nat)) (k : String) : Option Nat :=
  match l with
  | [] => none
  | (k0, v) :: rest =>
    match lookupLast rest k with
    | some v1 => some v1
    | none => if k0 = k then some v else none

/-- _build_file_words, read back at one key: the positions of live
non-import lines on which the identifier occurs, in order, with
multiplicity (file_words.get(w, [])). -/
def file_words (lines : List (Nat × String)) (ikeys : List Nat)
    (w : String) : List Nat :=
  ((lines.filter (fun p => !(ikeys.contains p.1))).map
    (fun p => (splitIdents p.2).filterMap
      (fun t => if t = w then some p.1 else none))).flatten

/-- One pattern character of the interpolated lookbehind matching one text
character: the alias is interpolated into the pattern unescaped, so a dot
in it matches any character except newline, and every other character of
an alias that can actually reach the loop (a pure identifier) matches
itself literally. -/
def patCharMatch (p c : Char) : Bool :=
  (p = '.' && !(c = '\n')) || p = c

/-- The zero-width lookbehind of alias_re at the current position, where
pre is the reversed list of characters before the position: the preceding
alias-length characters must match the alias pattern. -/
def lookbehindOK (als pre : List Char) : Bool :=
  als.length ≤ pre.length &&
    ((als.zip (pre.take als.length).reverse).all
      (fun pc => patCharMatch pc.1 pc.2))

/-- The maximal run of dot-plus-identifier segments from the start of the
suffix: each segment is a dot followed by a maximal non-empty run of word
characters.  Fuel bounds the scan; fuel = length suffices. -/
def segsGo : Nat → List Char → List (List Char)
  | 0, _ => []
  | Nat.succ k, s =>
    match s with
    | a :: c :: cs =>
      if a = '.' && isWordChar c then
        (a :: (c :: cs).takeWhile isWordChar)
          :: segsGo k ((c :: cs).dropWhile isWordChar)
      else []
    | _ => []

def segsFrom (s : List Char) : List (List Char) := segsGo s.length s

/-- The greedy match of the path and fn groups of alias_re at the current
position: the starred path group takes all whole segments it can while
still leaving one segment for fn, so path is every segment but the last
and fn is the last segment.  none when no segment starts here. -/
def chainHere (suf : List Char) : Option (List Char × List Char) :=
  let segs := segsFrom suf
  if segs.isEmpty then none
  else some (segs.dropLast.flatten, segs.getLastD [])

/-- re.search of alias_re: scan positions left to right; at the first
position whose lookbehind succeeds and where a segment chain starts,
return the (path, fn) groups.  pre is the reversed prefix before the
current position, suf the remaining suffix. -/
def searchAliasGo (als : List Char) (pre suf : List Char) :
    Option (List Char × List Char) :=
  match suf with
  | [] => if lookbehindOK als pre then chainHere [] else none
  | c :: cs =>
    if lookbehindOK als pre then
      match chainHere (c :: cs) with
      | some r => some r
      | none => searchAliasGo als (c :: pre) cs
    else searchAliasGo als (c :: pre) cs

def searchAlias (als s : List Char) : Option (List Char × List Char) :=
  searchAliasGo als [] s

/-- s.replace(tgt, rep): replace every non-overlapping occurrence, leftmost
first.  Fuel bounds the scan; fuel = length suffices. -/
def replaceGo (tgt rep : List Char) : Nat → List Char → List Char
  | 0, s => s
  | Nat.succ _, [] => []
  | Nat.succ k, c :: rest =>
    if !tgt.isEmpty && tgt.isPrefixOf (c :: rest) then
      rep ++ replaceGo tgt rep k (List.drop tgt.length (c :: rest))
    else
      c :: replaceGo tgt rep k rest

def replaceAllL (tgt rep s : List Char) : List Char :=
  replaceGo tgt rep s.length s

/-- The DirectImportSet: insertion-ordered association list from resolved
module to the insertion-ordered list of its distinct symbols (a dict of
sets in the source). -/
abbrev DiMap : Type := List (String × List String)

/-- direct_imports[k].add(v) -/
def diAdd (m : DiMap) (k v : String) : DiMap :=
  match m with
  | [] => [(k, [v])]
  | (k0, vs) :: rest =>
    if k0 = k then (k0, if v ∈ vs then vs else vs ++ [v]) :: rest
    else (k0, vs) :: diAdd rest k v

/-- The while-loop of _build_direct_imports on one line: search, record the
resolved module and symbol, replace, and search again until no match.  The
branch on alias_path versus the alias mirrors the source; both branches record
the same key since alias_path equals the alias exactly in the second branch.
Fuel bounds the iteration count; length of the line plus one suffices
because each replacement strictly shortens the line. -/
def resolveLineGo (als : List Char) :
    Nat → List Char → DiMap → List Char × DiMap
  | 0, s, m => (s, m)
  | Nat.succ fuel, s, m =>
    match searchAlias als s with
    | none => (s, m)
    | some (path, fn) =>
      let aliasPath := als ++ path
      let aliasPathFn := als ++ path ++ fn
      let fn1 := fn.drop 1
      let m1 :=
        if aliasPath ≠ als then diAdd m (String.mk aliasPath) (String.mk fn1)
        else diAdd m (String.mk als) (String.mk fn1)
      resolveLineGo als fuel (replaceAllL aliasPathFn fn1 s) m1

/-- The loop over places_used for one (module, alias) pair: each used line
is read from the buffer, resolved, and written back. -/
def resolvePlaces (als : String) :
    List Nat → List String × DiMap → List String × DiMap
  | [], st => st
  | p :: ps, (d, m) =>
    resolvePlaces als ps
      (d.set p (String.mk (resolveLineGo als.toList
          ((d.getD p "").toList.length + 1) (d.getD p "").toList m).1),
       (resolveLineGo als.toList
          ((d.getD p "").toList.length + 1) (d.getD p "").toList m).2)

/-- The inner loop of _build_direct_imports over the clauses of one import
line. -/
def bdiItems (fw : String → List Nat) (ikeys : List Nat) :
    List (String × String) → List String × DiMap → List String × DiMap
  | [], st => st
  | q :: rest, st =>
    let aliasLocs := fw q.2
    let places := (aliasLocs.filter (fun j => !(ikeys.contains j))).dedup
    bdiItems fw ikeys rest (resolvePlaces q.2 places st)

/-- The outer loop of _build_direct_imports over the import lines. -/
def bdiGo (fw : String → List Nat) (ikeys : List Nat) :
    List (Nat × List (String × String)) → List String × DiMap →
      List String × DiMap
  | [], st => st
  | p :: rest, st => bdiGo fw ikeys rest (bdiItems fw ikeys p.2 st)

/-- _build_direct_imports: guarded on a non-empty import map, resolve every
every alias over its used lines, mutating the buffer and accumulating the
DirectImportSet. -/
def build_direct_imports (data : List String)
    (imports : List (Nat × List (String × String)))
    (fw : String → List Nat) : List String × DiMap :=
  if imports.isEmpty then (data, [])
  else bdiGo fw (imports.map (fun p => p.1)) imports (data, [])

/-- Code-point lexicographic comparison of character lists, the string
ordering used by sorted. -/
def lexLe : List Char → List Char → Bool
  | [], _ => true
  | _ :: _, [] => false
  | a :: as, b :: bs => if a = b then lexLe as bs else decide (a < b)

def strLe (a b : String) : Bool := lexLe a.toList b.toList

/-- Insertion into a sorted list of strings. -/
def insortStr (x : String) : List String → List String
  | [] => [x]
  | y :: ys => if strLe x y then x :: y :: ys else y :: insortStr x ys

/-- sorted(strings) -/
def sortStr (l : List String) : List String := l.foldr insortStr []

/-- Insertion into a list of (module, symbols) pairs sorted by module. -/
def insortPair (x : String × List String) :
    List (String × List String) → List (String × List String)
  | [] => [x]
  | y :: ys => if strLe x.1 y.1 then x :: y :: ys else y :: insortPair x ys

/-- sorted(direct_imports.items()): the module keys are distinct, so the
tuple comparison of sorted only ever compares the keys. -/
def sortPairs (l : List (String × List String)) :
    List (String × List String) := l.foldr insortPair []

/-- The synthesized statement for one resolved module. -/
def synthLine (m : String) (fns : List String) : String :=
  "from " ++ m ++ " import " ++
    String.mk (joinSep ", ".toList ((sortStr fns).map String.toList))

/-- _replace_direct_imports: for each resolved module in sorted order,
overwrite its declaring line when the reverse index knows the module,
otherwise prepend the statement to the line one past the greatest
declaring position; reading that line fails with an index error
(modelled as none) when it is one past the end of the buffer, and the
maximum fails (none) when there are no imports at all. -/
def rdiStep (inv : List (String × Nat)) (ikeys : List Nat)
    (acc : Option (List String)) (p : String × List String) :
    Option (List String) :=
  match acc with
  | none => none
  | some d =>
    let di := synthLine p.1 p.2
    match lookupLast inv p.1 with
    | some importLine => some (d.set importLine di)
    | none =>
      match ikeys.max? with
      | none => none
      | some mx =>
        match d.get? (mx + 1) with
        | none => none
        | some old => some (d.set (mx + 1) (di ++ "\n" ++ old))

def replace_direct_imports (dimap : DiMap) (inv : List (String × Nat))
    (ikeys : List Nat) (data : List String) : Option (List String) :=
  (sortPairs dimap).foldl (rdiStep inv ikeys) (some data)

/-- The stages of one engine run on a file with the given content. -/
def dataOf (content : String) : List String := (readLines content).map rstrip

def linesOf (content : String) : List (Nat × String) :=
  build_valid_lines (dataOf content)

def importsOf (content : String) : List (Nat × List (String × String)) :=
  build_imports (linesOf content)

def invOf (content : String) : List (String × Nat) :=
  inv_imports_of (importsOf content)

def ikeysOf (content : String) : List Nat :=
  (importsOf content).map (fun p => p.1)

def fwOf (content : String) : String → List Nat :=
  file_words (linesOf content) (ikeysOf content)

/-- The buffer and DirectImportSet after the resolution pass. -/
def resolvedOf (content : String) : List String × DiMap :=
  build_direct_imports (dataOf content) (importsOf content) (fwOf content)

/-- One full engine run: none models an uncaught index error raised inside
_replace_direct_imports, which aborts the run before _rewrite_file, so no
write happens; some (wrote, c) gives whether the file was rewritten and
its resulting content (the original content when nothing was written). -/
def runEngine (content : String) : Option (Bool × String) :=
  match replace_direct_imports (resolvedOf content).2 (invOf content)
      (ikeysOf content) (resolvedOf content).1 with
  | none => none
  | some d2 =>
    if (resolvedOf content).2.isEmpty then some (false, content)
    else some (true,
      String.mk (joinSep ['\n'] (d2.map String.toList)) ++ "\n")

/-- The content of the file on disk after one run: unchanged when the run
aborted before the write or when nothing was written. -/
def diskAfter (content : String) : String :=
  match runEngine content with
  | none => content
  | some p => p.2

/-- C1: the spec example fails on the code.  On the file holding the
declaration of alpha.beta under the alias x and the usage x.foo(x.bar.baz),
one run resolves the usage line to foo(baz), but the DirectImportSet
records the alias name x (and x.bar), not the module path alpha.beta: the
two branches at the end of the match loop record the same key.  Since
neither x nor x.bar is a key of the reverse index (which is keyed by
module path), the import line is left untouched and two new lines naming
the alias, from x.bar import baz and from x import foo, are inserted
before the usage line instead of the claimed rewrite to
from alpha.beta import foo. -/
theorem claim_C1_actual_behavior :
    runEngine "import alpha.beta as x\nx.foo(x.bar.baz)\n" =
      some (true,
        "import alpha.beta as x\nfrom x.bar import baz\nfrom x import foo\nfoo(baz)\n") ∧
    (resolvedOf "import alpha.beta as x\nx.foo(x.bar.baz)\n").2 =
      [("x", ["foo"]), ("x.bar", ["baz"])] :=
  ⟨rfl, rfl⟩

/-- C2: the engine is not idempotent.  On the same file as C1 the first
run writes; the second run, fed the first output, extracts the alias x
from the surviving import line, resolves the fabricated line
from x.bar import baz as a fresh usage of x, writes again, and produces a
third content different from the second.  So the second application
performs a write and changes the file, against the claim. -/
theorem claim_C2_second_run_writes_again :
    runEngine "import alpha.beta as x\nx.foo(x.bar.baz)\n" =
      some (true,
        "import alpha.beta as x\nfrom x.bar import baz\nfrom x import foo\nfoo(baz)\n") ∧
    runEngine
        "import alpha.beta as x\nfrom x.bar import baz\nfrom x import foo\nfoo(baz)\n" =
      some (true,
        "import alpha.beta as x\nfrom x import bar\nfrom bar import baz\nfrom x import foo\nfoo(baz)\n") ∧
    ("import alpha.beta as x\nfrom x import bar\nfrom bar import baz\nfrom x import foo\nfoo(baz)\n" : String) ≠
      "import alpha.beta as x\nfrom x.bar import baz\nfrom x import foo\nfoo(baz)\n" :=
  ⟨rfl, rfl, by decide⟩

/-- C3 counterexample: the attribute-chain search is anchored only by a
lookbehind for the alias spelling, with no word-boundary test before it.
In the file declaring alpha.beta as x with the usage line x.one(myx.two),
the line is scanned because x occurs in it as a standalone token, and the
occurrence myx.two, whose identifier myx merely ends with the alias
spelling, is matched after the x inside myx: the buffer line becomes
one(mytwo) and the symbol two is recorded under x, refuting the claim
that such identifiers are never resolved or rewritten. -/
theorem claim_C3_counterexample :
    (resolvedOf "import alpha.beta as x\nx.one(myx.two)\n").1 =
      ["import alpha.beta as x", "one(mytwo)"] ∧
    (resolvedOf "import alpha.beta as x\nx.one(myx.two)\n").2 =
      [("x", ["one", "two"])] :=
  ⟨rfl, rfl⟩

/-- C4 counterexample: the reverse index is keyed by module path, not by
alias.  In a file declaring alpha.beta under the alias x, the alias x is
declared on line 0, yet the reverse index maps alpha.beta and has no entry
for x, refuting the claim that every declared alias is mapped to its
declaring position. -/
theorem claim_C4_counterexample :
    importsOf "import alpha.beta as x\n" = [(0, [("alpha.beta", "x")])] ∧
    invOf "import alpha.beta as x\n" = [("alpha.beta", 0)] ∧
    lookupLast (invOf "import alpha.beta as x\n") "x" = none :=
  ⟨rfl, rfl, rfl⟩

/-- The sequential pairing takes the recorded positions two at a time. -/
theorem pairRanges_getD_mem : ∀ (l : List Nat) (k : Nat), 2 * k + 1 < l.length →
    (l.getD (2 * k) 0, l.getD (2 * k + 1) 0) ∈ pairRanges l
  | [], k, h => by simp at h
  | [a], k, h => by simp at h
  | a :: b :: rest, 0, _ => by simp [pairRanges]
  | a :: b :: rest, Nat.succ k, h => by
    have hlt : 2 * k + 1 < rest.length := by
      simp only [List.length_cons] at h; omega
    have ih := pairRanges_getD_mem rest k hlt
    have e1 : 2 * Nat.succ k = 2 * k + 1 + 1 := by omega
    have e2 : 2 * Nat.succ k + 1 = 2 * k + 1 + 1 + 1 := by omega
    rw [e1]
    simp only [List.getD_cons_succ, pairRanges, List.mem_cons]
    exact Or.inr ih

/-- C5: for one block-delimiter style, when the recorded position count is
even the positions are paired sequentially and every line index inside an
inclusive pair range is removed from the live set; when the count is odd
the live set is returned unchanged (and the function never touches the
line buffer, which it does not even return). -/
theorem claim_C5 (delim : String) (data : List String)
    (lines : List (Nat × String)) :
    ((commentMarks delim data).length % 2 = 0 →
      ∀ k j s, 2 * k + 1 < (commentMarks delim data).length →
        (commentMarks delim data).getD (2 * k) 0 ≤ j →
        j ≤ (commentMarks delim data).getD (2 * k + 1) 0 →
        (j, s) ∉ strip_comment_blocks delim data lines) ∧
    ((commentMarks delim data).length % 2 ≠ 0 →
      strip_comment_blocks delim data lines = lines) := by
  constructor
  · intro he k j s hk h1 h2 hmem
    unfold strip_comment_blocks at hmem
    rw [if_pos he] at hmem
    have hf := (List.mem_filter.mp hmem).2
    have hany : ((pairRanges (commentMarks delim data)).any
        (fun r => r.1 ≤ j && j ≤ r.2)) = true :=
      List.any_eq_true.mpr
        ⟨_, pairRanges_getD_mem _ k hk, by
          simp only [Bool.and_eq_true, decide_eq_true_eq]
          exact ⟨by simpa using h1, by simpa using h2⟩⟩
    simp only [hany, Bool.not_true] at hf
    exact Bool.false_ne_true hf
  · intro ho
    unfold strip_comment_blocks
    rw [if_neg ho]

/-- Witness for C5: a paired pair of triple-quote lines removes the line
between them from the live set, and a lone delimiter line leaves the live
set unchanged. -/
theorem claim_C5_witness :
    ((commentMarks tqDouble ["\"\"\"", "import os", "\"\"\""]).length % 2 = 0 ∧
     (1, "import os") ∉
       strip_comment_blocks tqDouble ["\"\"\"", "import os", "\"\"\""]
         [(1, "import os")]) ∧
    ((commentMarks tqDouble ["\"\"\""]).length % 2 ≠ 0 ∧
     strip_comment_blocks tqDouble ["\"\"\""] [(0, "x = 1")] = [(0, "x = 1")]) :=
  ⟨⟨by decide,
    (claim_C5 tqDouble ["\"\"\"", "import os", "\"\"\""] [(1, "import os")]).1
      (by decide) 0 1 "import os" (by decide) (by decide) (by decide)⟩,
   ⟨by decide,
    (claim_C5 tqDouble ["\"\"\""] [(0, "x = 1")]).2 (by decide)⟩⟩

/-- A position returned by the usage index comes from a live line that
contains the identifier as a whole token. -/
theorem mem_file_words {lines : List (Nat × String)} {ikeys : List Nat}
    {w : String} {j : Nat} (h : j ∈ file_words lines ikeys w) :
    ∃ l ∈ lines, l.1 = j ∧ w ∈ splitIdents l.2 := by
  unfold file_words at h
  rcases List.mem_flatten.mp h with ⟨inner, hin, hj⟩
  rcases List.mem_map.mp hin with ⟨p, hp, rfl⟩
  rcases List.mem_filterMap.mp hj with ⟨t, ht, hval⟩
  by_cases htw : t = w
  · rw [if_pos htw] at hval
    exact ⟨p, (List.mem_filter.mp hp).1, Option.some_inj.mp hval,
      htw ▸ ht⟩
  · rw [if_neg htw] at hval
    exact absurd hval (Option.noConfusion)

/-- The per-alias resolution loop writes only to the positions it visits. -/
theorem resolvePlaces_get?_frame (als : String) :
    ∀ (places : List Nat) (st : List String × DiMap) (j : Nat),
      j ∉ places → ((resolvePlaces als places st).1).get? j = st.1.get? j
  | [], st, j, _ => rfl
  | p :: ps, (d, m), j, h => by
    have hne : p ≠ j := fun e => h (e ▸ List.mem_cons_self p ps)
    have hps : j ∉ ps := fun e => h (List.mem_cons_of_mem p e)
    unfold resolvePlaces
    rw [resolvePlaces_get?_frame als ps _ j hps]
    simp [List.getElem?_set_ne hne]

/-- The clause loop of the resolver writes only to usage positions of the
aliases it processes. -/
theorem bdiItems_get?_frame (fw : String → List Nat) (ikeys : List Nat) :
    ∀ (items : List (String × String)) (st : List String × DiMap) (j : Nat),
      (∀ q ∈ items, j ∉ fw q.2) →
      ((bdiItems fw ikeys items st).1).get? j = st.1.get? j
  | [], st, j, _ => rfl
  | q :: rest, st, j, h => by
    unfold bdiItems
    rw [bdiItems_get?_frame fw ikeys rest _ j
      (fun q2 hq2 => h q2 (List.mem_cons_of_mem q hq2))]
    apply resolvePlaces_get?_frame
    intro hmem
    have hj : j ∈ fw q.2 := by
      have := List.mem_dedup.mp hmem
      exact (List.mem_filter.mp this).1
    exact h q (List.mem_cons_self q rest) hj

/-- The import-line loop of the resolver writes only to usage positions of
the declared aliases. -/
theorem bdiGo_get?_frame (fw : String → List Nat) (ikeys : List Nat) :
    ∀ (imps : List (Nat × List (String × String)))
      (st : List String × DiMap) (j : Nat),
      (∀ p ∈ imps, ∀ q ∈ p.2, j ∉ fw q.2) →
      ((bdiGo fw ikeys imps st).1).get? j = st.1.get? j
  | [], st, j, _ => rfl
  | p :: rest, st, j, h => by
    unfold bdiGo
    rw [bdiGo_get?_frame fw ikeys rest _ j
      (fun p2 hp2 => h p2 (List.mem_cons_of_mem p hp2))]
    exact bdiItems_get?_frame fw ikeys p.2 st j (h p (List.mem_cons_self p rest))

/-- _build_direct_imports leaves every buffer position untouched at which
no declared alias is used. -/
theorem build_direct_imports_get?_frame (data : List String)
    (imports : List (Nat × List (String × String)))
    (fw : String → List Nat) (j : Nat)
    (h : ∀ p ∈ imports, ∀ q ∈ p.2, j ∉ fw q.2) :
    ((build_direct_imports data imports fw).1).get? j = data.get? j := by
  unfold build_direct_imports
  by_cases hi : imports.isEmpty
  · rw [if_pos hi]
  · rw [if_neg hi]
    exact bdiGo_get?_frame _ _ imports (data, []) j h

/-- C3 amended: the chain search has no word-boundary anchor of its own
(see the counterexample), but candidate lines are selected through the
token index, so a buffer line on which no declared alias occurs as a
standalone word token is left unchanged by the resolution pass. -/
theorem claim_C3_amended (content : String) (j : Nat)
    (h : ∀ p ∈ importsOf content, ∀ q ∈ p.2, ∀ l ∈ linesOf content,
      l.1 = j → q.2 ∉ splitIdents l.2) :
    ((resolvedOf content).1).get? j = (dataOf content).get? j := by
  unfold resolvedOf
  apply build_direct_imports_get?_frame
  intro p hp q hq hj
  rcases mem_file_words hj with ⟨l, hl, hlj, htok⟩
  exact h p hp q hq l hl hlj htok

/-- Witness for C3 amended: the alias x never occurs as a whole token in
the line myx.foo(1), so that line is untouched even though its identifier
myx ends with the alias spelling. -/
theorem claim_C3_amended_witness :
    ((resolvedOf "import alpha.beta as x\nmyx.foo(1)\n").1).get? 1 =
      (dataOf "import alpha.beta as x\nmyx.foo(1)\n").get? 1 :=
  claim_C3_amended "import alpha.beta as x\nmyx.foo(1)\n" 1 (by decide)

/-- Position j lies inside an inclusive sequential pair range of the
recorded delimiter positions of one style, and that style's count is even
(so its stripping pass actually runs). -/
def inPairedRangeB (delim : String) (data : List String) (j : Nat) : Bool :=
  ((commentMarks delim data).length % 2 == 0) &&
  ((pairRanges (commentMarks delim data)).any (fun r => r.1 ≤ j && j ≤ r.2))

/-- A position inside a paired range of a style with an even count is
removed from the live set by that style's stripping pass. -/
theorem notMem_strip_of_inPaired {delim : String} {data : List String}
    {j : Nat} (h : inPairedRangeB delim data j = true)
    (lines : List (Nat × String)) (s : String) :
    (j, s) ∉ strip_comment_blocks delim data lines := by
  intro hmem
  simp only [inPairedRangeB, Bool.and_eq_true, beq_iff_eq] at h
  obtain ⟨he, hany⟩ := h
  unfold strip_comment_blocks at hmem
  rw [if_pos he] at hmem
  have hf := (List.mem_filter.mp hmem).2
  simp only [hany, Bool.not_true] at hf
  exact Bool.false_ne_true hf

/-- Each stripping pass only removes live lines, never adds them. -/
theorem strip_comment_blocks_subset {delim : String} {data : List String}
    {lines : List (Nat × String)} {p : Nat × String}
    (h : p ∈ strip_comment_blocks delim data lines) : p ∈ lines := by
  unfold strip_comment_blocks at h
  split at h
  · exact (List.mem_filter.mp h).1
  · exact h

/-- An import-declaring position is a live position. -/
theorem build_imports_keys_subset {lines : List (Nat × String)} {j : Nat}
    (h : j ∈ (build_imports lines).map (fun p => p.1)) :
    j ∈ lines.map (fun p => p.1) := by
  rcases List.mem_map.mp h with ⟨p, hp, rfl⟩
  unfold build_imports at hp
  rcases List.mem_map.mp hp with ⟨q, hq, rfl⟩
  exact List.mem_map.mpr ⟨q, (List.mem_filter.mp hq).1, rfl⟩

/-- C6: a line index lying inside an even-count sequential triple-quote
pair (of either style) is excluded from the live set, hence never becomes
an import declaration, and its buffer text is left unmodified by the
resolution pass. -/
theorem claim_C6 (content : String) (j : Nat)
    (h : inPairedRangeB tqDouble (dataOf content) j = true ∨
         inPairedRangeB tqSingle (dataOf content) j = true) :
    j ∉ (linesOf content).map (fun p => p.1) ∧
    j ∉ (importsOf content).map (fun p => p.1) ∧
    ((resolvedOf content).1).get? j = (dataOf content).get? j := by
  have hlive : ∀ s, (j, s) ∉ linesOf content := by
    intro s hmem
    rcases h with h1 | h2
    · exact notMem_strip_of_inPaired h1 _ s
        (strip_comment_blocks_subset hmem)
    · exact notMem_strip_of_inPaired h2 _ s hmem
  have hkeys : j ∉ (linesOf content).map (fun p => p.1) := by
    intro hk
    rcases List.mem_map.mp hk with ⟨p, hp, rfl⟩
    exact hlive p.2 hp
  refine ⟨hkeys, fun hk => hkeys (build_imports_keys_subset hk), ?_⟩
  unfold resolvedOf
  apply build_direct_imports_get?_frame
  intro p _ q _ hj
  rcases mem_file_words hj with ⟨l, hl, hlj, _⟩
  exact hkeys (List.mem_map.mpr ⟨l, hl, hlj⟩)

/-- Witness for C6: the import-looking line between a pair of triple-quote
lines is not live, not an import, and its buffer text is untouched. -/
theorem claim_C6_witness :
    (inPairedRangeB tqDouble
        (dataOf "\"\"\"\nimport alpha as q\n\"\"\"\nimport beta as x\nx.foo\n") 1 = true ∨
     inPairedRangeB tqSingle
        (dataOf "\"\"\"\nimport alpha as q\n\"\"\"\nimport beta as x\nx.foo\n") 1 = true) ∧
    (1 ∉ (linesOf "\"\"\"\nimport alpha as q\n\"\"\"\nimport beta as x\nx.foo\n").map
        (fun p => p.1) ∧
     1 ∉ (importsOf "\"\"\"\nimport alpha as q\n\"\"\"\nimport beta as x\nx.foo\n").map
        (fun p => p.1) ∧
     ((resolvedOf "\"\"\"\nimport alpha as q\n\"\"\"\nimport beta as x\nx.foo\n").1).get? 1 =
       (dataOf "\"\"\"\nimport alpha as q\n\"\"\"\nimport beta as x\nx.foo\n").get? 1) :=
  ⟨Or.inl (by decide),
   claim_C6 "\"\"\"\nimport alpha as q\n\"\"\"\nimport beta as x\nx.foo\n" 1
     (Or.inl (by decide))⟩

/-- Enumerated positions start at the enumeration base. -/
theorem enumFromL_mem_le : ∀ (l : List α) (n : Nat) (p : Nat × α),
    p ∈ enumFromL n l → n ≤ p.1
  | _ :: l, n, p, h => by
    rcases List.mem_cons.mp h with rfl | h2
    · exact Nat.le_refl n
    · exact Nat.le_of_succ_le (enumFromL_mem_le l (n + 1) p h2)

/-- Enumerated positions are strictly increasing. -/
theorem enumFromL_pairwise : ∀ (l : List α) (n : Nat),
    (enumFromL n l).Pairwise (fun p q => p.1 < q.1)
  | [], _ => List.Pairwise.nil
  | _ :: l, n => by
    refine List.Pairwise.cons ?_ (enumFromL_pairwise l (n + 1))
    intro p hp
    exact Nat.lt_of_lt_of_le (Nat.lt_succ_self n) (enumFromL_mem_le l (n + 1) p hp)

/-- Stripping preserves the increasing order of live positions. -/
theorem strip_comment_blocks_pairwise {delim : String} {data : List String}
    {lines : List (Nat × String)}
    (h : lines.Pairwise (fun p q => p.1 < q.1)) :
    (strip_comment_blocks delim data lines).Pairwise (fun p q => p.1 < q.1) := by
  unfold strip_comment_blocks
  split
  · exact h.filter _
  · exact h

/-- The live-line positions are strictly increasing. -/
theorem linesOf_pairwise (content : String) :
    (linesOf content).Pairwise (fun p q => p.1 < q.1) := by
  unfold linesOf build_valid_lines
  exact strip_comment_blocks_pairwise (strip_comment_blocks_pairwise
    ((enumFromL_pairwise _ 0).filter _))

/-- The import-declaring positions are strictly increasing. -/
theorem importsOf_pairwise (content : String) :
    (importsOf content).Pairwise (fun p q => p.1 < q.1) := by
  unfold importsOf build_imports
  exact ((linesOf_pairwise content).filter _).map _ (fun a b h => h)

/-- Membership in the reverse index is exactly a declaration. -/
theorem mem_inv_imports {imports : List (Nat × List (String × String))}
    {m : String} {i : Nat} :
    (m, i) ∈ inv_imports_of imports ↔
      ∃ p ∈ imports, p.1 = i ∧ ∃ q ∈ p.2, q.1 = m := by
  unfold inv_imports_of
  simp only [List.mem_flatten, List.mem_map]
  constructor
  · rintro ⟨inner, ⟨p, hp, rfl⟩, hmi⟩
    rcases List.mem_map.mp hmi with ⟨q, hq, hqe⟩
    exact ⟨p, hp, congrArg Prod.snd hqe, q, hq, congrArg Prod.fst hqe⟩
  · rintro ⟨p, hp, rfl, q, hq, rfl⟩
    exact ⟨p.2.map (fun q => (q.1, p.1)), ⟨p, hp, rfl⟩,
      List.mem_map.mpr ⟨q, hq, rfl⟩⟩

/-- A reverse-index entry points at a declaring line of the import map. -/
theorem inv_imports_mem_keys {imports : List (Nat × List (String × String))}
    {b : String × Nat} (h : b ∈ inv_imports_of imports) :
    ∃ p ∈ imports, b.2 = p.1 := by
  unfold inv_imports_of at h
  rcases List.mem_flatten.mp h with ⟨inner, hin, hb⟩
  rcases List.mem_map.mp hin with ⟨p, hp, rfl⟩
  rcases List.mem_map.mp hb with ⟨q, _, rfl⟩
  exact ⟨p, hp, rfl⟩

/-- With strictly increasing import positions, the reverse-index entries
carry non-decreasing positions in insertion order. -/
theorem inv_imports_pairwise :
    ∀ {imports : List (Nat × List (String × String))},
    imports.Pairwise (fun p q => p.1 < q.1) →
    (inv_imports_of imports).Pairwise (fun a b => a.2 ≤ b.2)
  | [], _ => List.Pairwise.nil
  | p :: rest, h => by
    have hgroup : ∀ (items : List (String × String)) (i : Nat),
        (items.map (fun q => (q.1, i))).Pairwise
          (fun a b : String × Nat => a.2 ≤ b.2) := by
      intro items i
      induction items with
      | nil => exact List.Pairwise.nil
      | cons q qs ih =>
        refine List.Pairwise.cons ?_ ih
        intro b hb
        rcases List.mem_map.mp hb with ⟨q2, _, rfl⟩
        exact Nat.le_refl i
    have hrest := inv_imports_pairwise (List.Pairwise.sublist (List.sublist_cons_self p rest) h)
    show (p.2.map (fun q => (q.1, p.1)) ++ inv_imports_of rest).Pairwise
      (fun a b => a.2 ≤ b.2)
    rw [List.pairwise_append]
    refine ⟨hgroup p.2 p.1, hrest, ?_⟩
    intro a ha b hb
    rcases List.mem_map.mp ha with ⟨q, _, rfl⟩
    rcases inv_imports_mem_keys hb with ⟨r, hr, hbe⟩
    have := (List.pairwise_cons.mp h).1 r hr
    omega

/-- A key absent from the dict lookup has no binding at all. -/
theorem lookupLast_eq_none : ∀ {l : List (String × Nat)} {k : String},
    lookupLast l k = none → ∀ v, (k, v) ∉ l
  | [], k, _, v, hmem => by cases hmem
  | (k0, v0) :: rest, k, h, v, hmem => by
    unfold lookupLast at h
    rcases hrest : lookupLast rest k with _ | v1
    · rw [hrest] at h
      rcases List.mem_cons.mp hmem with he | hm
      · have hk : k0 = k := congrArg Prod.fst he.symm
        rw [if_pos hk] at h
        exact Option.noConfusion h
      · exact lookupLast_eq_none hrest v hm
    · rw [hrest] at h
      exact Option.noConfusion h

/-- The dict lookup returns an actual binding of the key. -/
theorem lookupLast_mem : ∀ {l : List (String × Nat)} {k : String} {v : Nat},
    lookupLast l k = some v → (k, v) ∈ l
  | [], k, v, h => Option.noConfusion h
  | (k0, v0) :: rest, k, v, h => by
    unfold lookupLast at h
    rcases hrest : lookupLast rest k with _ | v1
    · rw [hrest] at h
      by_cases hk : k0 = k
      · rw [if_pos hk] at h
        have hv : v0 = v := Option.some_inj.mp h
        rw [← hk, ← hv]
        exact List.mem_cons_self _ _
      · rw [if_neg hk] at h
        exact Option.noConfusion h
    · rw [hrest] at h
      have hv := Option.some_inj.mp h
      exact List.mem_cons_of_mem _ (hv ▸ lookupLast_mem hrest)

/-- With non-decreasing positions, the binding the dict keeps is maximal
among the bindings of the key: the later declaration wins. -/
theorem lookupLast_max : ∀ {l : List (String × Nat)} {k : String} {v : Nat},
    l.Pairwise (fun a b => a.2 ≤ b.2) → lookupLast l k = some v →
    ∀ w, (k, w) ∈ l → w ≤ v
  | [], k, v, _, _, w, hmem => by cases hmem
  | (k0, v0) :: rest, k, v, hp, h, w, hmem => by
    unfold lookupLast at h
    rcases hrest : lookupLast rest k with _ | v1
    · rw [hrest] at h
      by_cases hk : k0 = k
      · rw [if_pos hk] at h
        have hv := Option.some_inj.mp h
        rcases List.mem_cons.mp hmem with he | hm
        · have : w = v0 := congrArg Prod.snd he
          omega
        · exact absurd hm (lookupLast_eq_none hrest w)
      · rw [if_neg hk] at h
        exact Option.noConfusion h
    · rw [hrest] at h
      have hv := Option.some_inj.mp h
      rcases List.mem_cons.mp hmem with he | hm
      · have hw : w = v0 := congrArg Prod.snd he
        have hmem1 := lookupLast_mem hrest
        have := (List.pairwise_cons.mp hp).1 _ hmem1
        omega
      · exact hv ▸ lookupLast_max (List.pairwise_cons.mp hp).2 hrest w hm

/-- C4 amended: the reverse index is keyed by the declared module path
(coinciding with the alias exactly when there is no rename; a renamed
alias is not a key, see the counterexample).  Every declared module path
is mapped, the mapped position is itself a declaring line of that path,
and it is the greatest such line: the later declaration wins. -/
theorem claim_C4_amended (content : String) (m : String) (j : Nat)
    (hdecl : ∃ p ∈ importsOf content, p.1 = j ∧ ∃ q ∈ p.2, q.1 = m) :
    ∃ i, lookupLast (invOf content) m = some i ∧ j ≤ i ∧
      ∃ p ∈ importsOf content, p.1 = i ∧ ∃ q ∈ p.2, q.1 = m := by
  have hmem : (m, j) ∈ invOf content := mem_inv_imports.mpr hdecl
  rcases hl : lookupLast (invOf content) m with _ | i
  · exact absurd hmem (lookupLast_eq_none hl j)
  · refine ⟨i, rfl, ?_, ?_⟩
    · exact lookupLast_max (inv_imports_pairwise (importsOf_pairwise content))
        hl j hmem
    · exact mem_inv_imports.mp (lookupLast_mem hl)

/-- Witness for C4 amended: with the same module imported on two lines,
the reverse index maps it to the later line. -/
theorem claim_C4_amended_witness :
    (∃ p ∈ importsOf "import a\nimport a\ny = a.b\n", p.1 = 0 ∧
      ∃ q ∈ p.2, q.1 = "a") ∧
    ∃ i, lookupLast (invOf "import a\nimport a\ny = a.b\n") "a" = some i ∧
      0 ≤ i ∧ ∃ p ∈ importsOf "import a\nimport a\ny = a.b\n", p.1 = i ∧
        ∃ q ∈ p.2, q.1 = "a" :=
  ⟨by decide, claim_C4_amended "import a\nimport a\ny = a.b\n" "a" 0 (by decide)⟩

/-- C8: on a file with no import declarations the guard in
_build_direct_imports leaves the DirectImportSet empty, the rewrite step
is skipped, and the file on disk is byte-for-byte unchanged. -/
theorem claim_C8 (content : String) (h : importsOf content = []) :
    (resolvedOf content).2 = [] ∧ runEngine content = some (false, content) ∧
    diskAfter content = content := by
  have hres : resolvedOf content = (dataOf content, []) := by
    unfold resolvedOf
    rw [h]
    rfl
  have hrun : runEngine content = some (false, content) := by
    unfold runEngine
    rw [hres]
    rfl
  refine ⟨by rw [hres], hrun, ?_⟩
  unfold diskAfter
  rw [hrun]

/-- Witness for C8: a file with no imports is untouched and unwritten. -/
theorem claim_C8_witness :
    importsOf "x = 1\ny = x + 2\n" = [] ∧
    ((resolvedOf "x = 1\ny = x + 2\n").2 = [] ∧
     runEngine "x = 1\ny = x + 2\n" = some (false, "x = 1\ny = x + 2\n") ∧
     diskAfter "x = 1\ny = x + 2\n" = "x = 1\ny = x + 2\n") :=
  ⟨rfl, claim_C8 "x = 1\ny = x + 2\n" rfl⟩

/-- Writing a buffer position back leaves the buffer length unchanged, so
the per-alias loop preserves the buffer length. -/
theorem resolvePlaces_length (als : String) :
    ∀ (places : List Nat) (st : List String × DiMap),
      ((resolvePlaces als places st).1).length = st.1.length
  | [], _ => rfl
  | p :: ps, (d, m) => by
    unfold resolvePlaces
    rw [resolvePlaces_length als ps]
    exact List.length_set d p _

/-- The clause loop preserves the buffer length. -/
theorem bdiItems_length (fw : String → List Nat) (ikeys : List Nat) :
    ∀ (items : List (String × String)) (st : List String × DiMap),
      ((bdiItems fw ikeys items st).1).length = st.1.length
  | [], _ => rfl
  | q :: rest, st => by
    unfold bdiItems
    rw [bdiItems_length fw ikeys rest]
    exact resolvePlaces_length q.2 _ st

/-- The import-line loop preserves the buffer length. -/
theorem bdiGo_length (fw : String → List Nat) (ikeys : List Nat) :
    ∀ (imps : List (Nat × List (String × String)))
      (st : List String × DiMap),
      ((bdiGo fw ikeys imps st).1).length = st.1.length
  | [], _ => rfl
  | p :: rest, st => by
    unfold bdiGo
    rw [bdiGo_length fw ikeys rest]
    exact bdiItems_length fw ikeys p.2 st

/-- The resolution pass preserves the buffer length. -/
theorem build_direct_imports_length (data : List String)
    (imports : List (Nat × List (String × String)))
    (fw : String → List Nat) :
    ((build_direct_imports data imports fw).1).length = data.length := by
  unfold build_direct_imports
  split
  · rfl
  · exact bdiGo_length fw _ imports (data, [])

/-- An error accumulator stays an error through the synthesis fold. -/
theorem foldl_rdiStep_none (inv : List (String × Nat)) (ikeys : List Nat) :
    ∀ (l : List (String × List String)),
      l.foldl (rdiStep inv ikeys) none = none
  | [] => rfl
  | _ :: rest => foldl_rdiStep_none inv ikeys rest

/-- A successful synthesis step is a single buffer write: it preserves the
buffer length. -/
theorem rdiStep_some_length {inv : List (String × Nat)} {ikeys : List Nat}
    {d d2 : List String} {p : String × List String}
    (h : rdiStep inv ikeys (some d) p = some d2) : d2.length = d.length := by
  rcases h1 : lookupLast inv p.1 with _ | importLine
  · rcases h2 : ikeys.max? with _ | mx
    · simp only [rdiStep, h1, h2] at h
      exact Option.noConfusion h
    · rcases h3 : d.get? (mx + 1) with _ | old
      · simp only [rdiStep, h1, h2, h3] at h
        exact Option.noConfusion h
      · simp only [rdiStep, h1, h2, h3] at h
        rw [← Option.some_inj.mp h]
        exact List.length_set d _ _
  · simp only [rdiStep, h1] at h
    rw [← Option.some_inj.mp h]
    exact List.length_set d _ _

/-- When a resolved module has no reverse-index entry and the greatest of
the import positions is the last buffer line, the synthesis step reads one
past the end of the buffer and fails. -/
theorem rdiStep_fails {inv : List (String × Nat)} {ikeys : List Nat}
    {d : List String} {p : String × List String} {mx : Nat}
    (h1 : lookupLast inv p.1 = none) (h2 : ikeys.max? = some mx)
    (h3 : d.length = mx + 1) : rdiStep inv ikeys (some d) p = none := by
  have hg : d.get? (mx + 1) = none := by
    rw [List.get?_eq_getElem?]
    exact List.getElem?_eq_none (by omega)
  simp only [rdiStep, h1, h2, hg]

/-- The synthesis fold fails whenever some entry has no reverse-index
binding and the buffer ends right after the greatest import position. -/
theorem foldl_rdiStep_fails {inv : List (String × Nat)} {ikeys : List Nat}
    {mx : Nat} (h2 : ikeys.max? = some mx) :
    ∀ (entries : List (String × List String)) (d : List String),
      d.length = mx + 1 →
      (∃ p ∈ entries, lookupLast inv p.1 = none) →
      entries.foldl (rdiStep inv ikeys) (some d) = none
  | [], _, _, hex => by
    rcases hex with ⟨p, hp, _⟩
    cases hp
  | e :: rest, d, hlen, hex => by
    rcases h1 : lookupLast inv e.1 with _ | i
    · show List.foldl _ (rdiStep inv ikeys (some d) e) rest = none
      rw [rdiStep_fails h1 h2 hlen]
      exact foldl_rdiStep_none inv ikeys rest
    · rcases hex with ⟨p, hp, hpnone⟩
      rcases List.mem_cons.mp hp with rfl | hprest
      · rw [h1] at hpnone
        exact Option.noConfusion hpnone
      · show List.foldl _ (rdiStep inv ikeys (some d) e) rest = none
        have hstep : rdiStep inv ikeys (some d) e =
            some (d.set i (synthLine e.1 e.2)) := by
          simp only [rdiStep, h1]
        rw [hstep]
        exact foldl_rdiStep_fails h2 rest _
          (by rw [List.length_set]; exact hlen) ⟨p, hprest, hpnone⟩

/-- C9: when some resolved module is missing from the reverse index and
the greatest import-declaring position is the last line of the buffer, the
insertion step of the Rewriter indexes one past the end of the buffer and
the run aborts with an index error before the write, leaving the file on
disk unchanged. -/
theorem claim_C9 (content : String) (mx : Nat)
    (hbad : ∃ p ∈ sortPairs (resolvedOf content).2,
      lookupLast (invOf content) p.1 = none)
    (hmx : (ikeysOf content).max? = some mx)
    (hlen : (dataOf content).length = mx + 1) :
    runEngine content = none ∧ diskAfter content = content := by
  have hlen1 : ((resolvedOf content).1).length = mx + 1 := by
    unfold resolvedOf
    rw [build_direct_imports_length]
    exact hlen
  have hrep : replace_direct_imports (resolvedOf content).2 (invOf content)
      (ikeysOf content) (resolvedOf content).1 = none := by
    unfold replace_direct_imports
    exact foldl_rdiStep_fails hmx _ _ hlen1 hbad
  have hrun : runEngine content = none := by
    unfold runEngine
    rw [hrep]
  refine ⟨hrun, ?_⟩
  unfold diskAfter
  rw [hrun]

/-- Witness for C9: one usage line, then the import declaration as the
last line; the resolved module x lacks a reverse-index entry, so the run
aborts and writes nothing. -/
theorem claim_C9_witness :
    ((∃ p ∈ sortPairs (resolvedOf "x.foo\nimport alpha.beta as x\n").2,
       lookupLast (invOf "x.foo\nimport alpha.beta as x\n") p.1 = none) ∧
     (ikeysOf "x.foo\nimport alpha.beta as x\n").max? = some 1 ∧
     (dataOf "x.foo\nimport alpha.beta as x\n").length = 1 + 1) ∧
    runEngine "x.foo\nimport alpha.beta as x\n" = none ∧
    diskAfter "x.foo\nimport alpha.beta as x\n" =
      "x.foo\nimport alpha.beta as x\n" :=
  ⟨⟨by decide, by decide, by decide⟩,
   claim_C9 "x.foo\nimport alpha.beta as x\n" 1 (by decide) (by decide)
     (by decide)⟩

/-- The segment scan consumes a prefix of the suffix, and every segment it
returns is a dot followed by a non-empty run of word characters. -/
theorem segsGo_spec : ∀ (fuel : Nat) (s : List Char),
    (∃ rest, s = (segsGo fuel s).flatten ++ rest) ∧
    (∀ seg ∈ segsGo fuel s, ∃ t, seg = '.' :: t ∧ t ≠ [] ∧
      ∀ c ∈ t, isWordChar c = true)
  | 0, s => ⟨⟨s, rfl⟩, by intro seg h; cases h⟩
  | Nat.succ k, [] => ⟨⟨[], rfl⟩, by intro seg h; cases h⟩
  | Nat.succ k, [a] => ⟨⟨[a], rfl⟩, by intro seg h; cases h⟩
  | Nat.succ k, a :: c :: cs => by
    by_cases hc : (a = '.' && isWordChar c) = true
    · obtain ⟨ha2, hw⟩ : a = '.' ∧ isWordChar c = true := by
        simpa using hc
      have ih := segsGo_spec k ((c :: cs).dropWhile isWordChar)
      constructor
      · rcases ih.1 with ⟨rest, hrest⟩
        refine ⟨rest, ?_⟩
        simp only [segsGo, hc, if_true, List.flatten_cons, List.cons_append]
        rw [List.append_assoc, ← hrest]
        rw [List.takeWhile_append_dropWhile]
      · intro seg hseg
        simp only [segsGo, hc, if_true, List.mem_cons] at hseg
        rcases hseg with rfl | hseg2
        · refine ⟨(c :: cs).takeWhile isWordChar, by rw [ha2], ?_, ?_⟩
          · simp [List.takeWhile_cons, hw]
          · intro x hx
            exact List.mem_takeWhile_imp hx
        · exact ih.2 seg hseg2
    · constructor
      · exact ⟨a :: c :: cs, by simp [segsGo, hc]⟩
      · intro seg hseg
        simp [segsGo, hc] at hseg

/-- A non-empty list is its front followed by its last element. -/
theorem dropLast_append_getLastD : ∀ (l : List α), l ≠ [] → ∀ (d : α),
    l = l.dropLast ++ [l.getLastD d]
  | [x], _, _ => rfl
  | x :: y :: r, _, d => by
    have ih := dropLast_append_getLastD (y :: r) (by simp) x
    simp only [List.getLastD_cons] at ih
    simp only [List.getLastD_cons, List.dropLast_cons₂, List.cons_append]
    exact congrArg (x :: ·) ih

/-- The last element with default of a non-empty list is a member. -/
theorem getLastD_mem : ∀ (l : List α), l ≠ [] → ∀ (d : α),
    l.getLastD d ∈ l
  | [x], _, d => by simp
  | x :: y :: r, _, d => by
    have ih := getLastD_mem (y :: r) (by simp) x
    simp only [List.getLastD_cons] at ih
    simp only [List.getLastD_cons]
    exact List.mem_cons_of_mem x ih

/-- The greedy group match at a position: the path and fn groups together
consume a prefix of the suffix, and fn is a dot followed by a non-empty
word-character run. -/
theorem chainHere_spec {suf path fn : List Char}
    (h : chainHere suf = some (path, fn)) :
    (∃ rest, suf = path ++ fn ++ rest) ∧
    ∃ t, fn = '.' :: t ∧ t ≠ [] ∧ ∀ c ∈ t, isWordChar c = true := by
  unfold chainHere at h
  by_cases hs : (segsFrom suf).isEmpty
  · rw [if_pos hs] at h
    exact Option.noConfusion h
  · rw [if_neg hs] at h
    have hne : segsFrom suf ≠ [] := by
      intro he
      rw [he] at hs
      exact hs rfl
    have hpair := Option.some_inj.mp h
    have hpath : path = (segsFrom suf).dropLast.flatten :=
      (congrArg Prod.fst hpair).symm
    have hfn : fn = (segsFrom suf).getLastD [] :=
      (congrArg Prod.snd hpair).symm
    have hspec := segsGo_spec suf.length suf
    have hmem : (segsFrom suf).getLastD [] ∈ segsFrom suf :=
      getLastD_mem (segsFrom suf) hne []
    constructor
    · rcases hspec.1 with ⟨rest, hrest⟩
      refine ⟨rest, ?_⟩
      rw [hpath, hfn, ← List.flatten_concat]
      rw [← dropLast_append_getLastD (segsFrom suf) hne []]
      exact hrest
    · exact hfn ▸ hspec.2 _ hmem

/-- A successful search decomposes the line at some scan position whose
lookbehind succeeds and where the group match fires. -/
theorem searchAliasGo_spec (als : List Char) :
    ∀ (suf pre path fn : List Char),
      searchAliasGo als pre suf = some (path, fn) →
      ∃ pre2 suf2, pre.reverse ++ suf = pre2.reverse ++ suf2 ∧
        lookbehindOK als pre2 = true ∧ chainHere suf2 = some (path, fn) := by
  intro suf
  induction suf with
  | nil =>
    intro pre path fn h
    by_cases hl : lookbehindOK als pre = true
    · rcases hc : chainHere ([] : List Char) with _ | r
      · unfold searchAliasGo at h
        simp only [hl, if_true, hc] at h
        exact Option.noConfusion h
      · unfold searchAliasGo at h
        simp only [hl, if_true, hc] at h
        exact ⟨pre, [], rfl, hl, by rw [hc, h]⟩
    · have hl2 : lookbehindOK als pre = false := Bool.eq_false_iff.mpr hl
      unfold searchAliasGo at h
      simp only [hl2, Bool.false_eq_true, if_false] at h
      exact Option.noConfusion h
  | cons c cs ih =>
    intro pre path fn h
    by_cases hl : lookbehindOK als pre = true
    · rcases hc : chainHere (c :: cs) with _ | r
      · unfold searchAliasGo at h
        simp only [hl, if_true, hc] at h
        rcases ih (c :: pre) path fn h with ⟨pre2, suf2, heq, h1, h2⟩
        refine ⟨pre2, suf2, ?_, h1, h2⟩
        rw [← heq]
        simp
      · unfold searchAliasGo at h
        simp only [hl, if_true, hc] at h
        exact ⟨pre, c :: cs, rfl, hl, by rw [hc, h]⟩
    · have hl2 : lookbehindOK als pre = false := Bool.eq_false_iff.mpr hl
      unfold searchAliasGo at h
      simp only [hl2, Bool.false_eq_true, if_false] at h
      rcases ih (c :: pre) path fn h with ⟨pre2, suf2, heq, h1, h2⟩
      refine ⟨pre2, suf2, ?_, h1, h2⟩
      rw [← heq]
      simp

/-- Equal-length lists with pointwise equal zipped pairs are equal. -/
theorem eq_of_zip_all_eq : ∀ (l1 l2 : List α), l1.length = l2.length →
    (∀ pc ∈ l1.zip l2, pc.1 = pc.2) → l1 = l2
  | [], [], _, _ => rfl
  | [], b :: bs, hlen, _ => by simp at hlen
  | a :: as, [], hlen, _ => by simp at hlen
  | a :: as, b :: bs, hlen, hall => by
    have hab : a = b := hall (a, b) (List.mem_cons_self _ _)
    rw [hab, eq_of_zip_all_eq as bs (by simpa using hlen)
      (fun pc hpc => hall pc (List.mem_cons_of_mem _ hpc))]

/-- For an alias made of word characters (the only aliases that ever have
usage positions, since the usage index is keyed by word tokens), every
interpolated lookbehind character matches literally: the characters before
the position are exactly the alias. -/
theorem lookbehindOK_word {als pre : List Char}
    (hw : ∀ c ∈ als, isWordChar c = true) (h : lookbehindOK als pre = true) :
    als.length ≤ pre.length ∧ (pre.take als.length).reverse = als := by
  unfold lookbehindOK at h
  rw [Bool.and_eq_true] at h
  obtain ⟨hlen0, hall0⟩ := h
  have hlen : als.length ≤ pre.length := by simpa using hlen0
  refine ⟨hlen, ?_⟩
  refine (eq_of_zip_all_eq als ((pre.take als.length).reverse) ?_ ?_).symm
  · rw [List.length_reverse, List.length_take]
    omega
  · intro pc hpc
    have hp : pc.1 ∈ als := (List.of_mem_zip hpc).1
    have hm : patCharMatch pc.1 pc.2 = true := by
      have := List.all_eq_true.mp hall0 pc hpc
      simpa using this
    have hnd : pc.1 ≠ '.' := by
      intro hd
      have := hw pc.1 hp
      rw [hd] at this
      exact absurd this (by decide)
    unfold patCharMatch at hm
    rw [Bool.or_eq_true] at hm
    rcases hm with hm1 | hm2
    · rw [Bool.and_eq_true] at hm1
      exact absurd (by simpa using hm1.1) hnd
    · simpa using hm2

/-- A successful search on a word-character alias exhibits the matched
text alias ++ path ++ fn as an actual substring of the line, with fn a dot
followed by a non-empty word run. -/
theorem searchAlias_decomp {als s path fn : List Char}
    (hw : ∀ c ∈ als, isWordChar c = true)
    (h : searchAlias als s = some (path, fn)) :
    (∃ u v, s = u ++ (als ++ path ++ fn) ++ v) ∧
    ∃ t, fn = '.' :: t ∧ t ≠ [] ∧ ∀ c ∈ t, isWordChar c = true := by
  rcases searchAliasGo_spec als s [] path fn h with
    ⟨pre2, suf2, heq, h1, h2⟩
  rcases lookbehindOK_word hw h1 with ⟨hlen, htake⟩
  rcases chainHere_spec h2 with ⟨⟨rest, hrest⟩, hfn⟩
  have hpre : pre2.reverse = (pre2.drop als.length).reverse ++ als := by
    conv_lhs => rw [← List.take_append_drop als.length pre2]
    rw [List.reverse_append, htake]
  refine ⟨⟨(pre2.drop als.length).reverse, rest, ?_⟩, hfn⟩
  have hs : s = pre2.reverse ++ suf2 := by simpa using heq
  rw [hs, hpre, hrest]
  simp [List.append_assoc]

/-- Replacement by a string no longer than the target never lengthens. -/
theorem replaceGo_length_le (tgt rep : List Char)
    (hle : rep.length ≤ tgt.length) :
    ∀ (fuel : Nat) (s : List Char),
      (replaceGo tgt rep fuel s).length ≤ s.length
  | 0, s => Nat.le_refl _
  | Nat.succ k, [] => Nat.le_refl _
  | Nat.succ k, c :: rest => by
    unfold replaceGo
    by_cases hp : (!tgt.isEmpty && tgt.isPrefixOf (c :: rest)) = true
    · rw [if_pos hp]
      rw [Bool.and_eq_true] at hp
      have htle : tgt.length ≤ (c :: rest).length :=
        (List.isPrefixOf_iff_prefix.mp hp.2).length_le
      have hrec := replaceGo_length_le tgt rep hle k
        (List.drop tgt.length (c :: rest))
      rw [List.length_append, List.length_drop] at *
      simp only [List.length_cons] at *
      omega
    · rw [if_neg hp]
      have hrec := replaceGo_length_le tgt rep hle k rest
      simp only [List.length_cons]
      omega

/-- Replacement by a strictly shorter string strictly shortens any line in
which the target actually occurs. -/
theorem replaceGo_length_lt (tgt rep : List Char) (hne : tgt ≠ [])
    (hlt : rep.length < tgt.length) :
    ∀ (fuel : Nat) (s u v : List Char), s = u ++ tgt ++ v →
      s.length ≤ fuel → (replaceGo tgt rep fuel s).length < s.length
  | 0, s, u, v, hocc, hfuel => by
    have hs : s = [] := List.eq_nil_of_length_eq_zero (Nat.le_zero.mp hfuel)
    rw [hs] at hocc
    rcases List.append_eq_nil.mp hocc.symm with ⟨h1, _⟩
    rcases List.append_eq_nil.mp h1 with ⟨_, h2⟩
    exact absurd h2 hne
  | Nat.succ k, [], u, v, hocc, _ => by
    rcases List.append_eq_nil.mp hocc.symm with ⟨h1, _⟩
    rcases List.append_eq_nil.mp h1 with ⟨_, h2⟩
    exact absurd h2 hne
  | Nat.succ k, c :: rest, u, v, hocc, hfuel => by
    unfold replaceGo
    by_cases hp : (!tgt.isEmpty && tgt.isPrefixOf (c :: rest)) = true
    · rw [if_pos hp]
      rw [Bool.and_eq_true] at hp
      have htle : tgt.length ≤ (c :: rest).length :=
        (List.isPrefixOf_iff_prefix.mp hp.2).length_le
      have hrec := replaceGo_length_le tgt rep (Nat.le_of_lt hlt) k
        (List.drop tgt.length (c :: rest))
      rw [List.length_append]
      rw [List.length_drop] at hrec
      have htpos : 0 < tgt.length := List.length_pos.mpr hne
      simp only [List.length_cons] at *
      omega
    · rw [if_neg hp]
      have htne : (!tgt.isEmpty) = true := by
        cases tgt with
        | nil => exact absurd rfl hne
        | cons a l => rfl
      have hpf : tgt.isPrefixOf (c :: rest) = false := by
        cases hpp : tgt.isPrefixOf (c :: rest)
        · rfl
        · exfalso
          apply hp
          rw [Bool.and_eq_true]
          exact ⟨htne, hpp⟩
      cases u with
      | nil =>
        exfalso
        have hpre : tgt <+: (c :: rest) := ⟨v, by rw [hocc]; simp⟩
        rw [List.isPrefixOf_iff_prefix.mpr hpre] at hpf
        exact Bool.noConfusion hpf
      | cons a u2 =>
        simp only [List.cons_append] at hocc
        injection hocc with hc hrest
        have hrec := replaceGo_length_lt tgt rep hne hlt k rest u2 v hrest
          (by simp only [List.length_cons] at hfuel; omega)
        simp only [List.length_cons]
        omega

/-- s.replace with a strictly shorter replacement strictly shortens every
line containing the target. -/
theorem replaceAllL_length_lt {tgt rep s : List Char} (hne : tgt ≠ [])
    (hlt : rep.length < tgt.length) (hocc : ∃ u v, s = u ++ tgt ++ v) :
    (replaceAllL tgt rep s).length < s.length := by
  rcases hocc with ⟨u, v, huv⟩
  exact replaceGo_length_lt tgt rep hne hlt s.length s u v huv (Nat.le_refl _)

/-- One loop iteration of the resolver replaces a non-empty matched text
with the strictly shorter bare symbol and strictly shortens the line. -/
theorem resolve_replace_shortens {als s path fn : List Char}
    (hw : ∀ c ∈ als, isWordChar c = true)
    (h : searchAlias als s = some (path, fn)) :
    als ++ path ++ fn ≠ [] ∧
    (fn.drop 1).length < (als ++ path ++ fn).length ∧
    (replaceAllL (als ++ path ++ fn) (fn.drop 1) s).length < s.length := by
  rcases searchAlias_decomp hw h with ⟨⟨u, v, huv⟩, ⟨t, hfn, htne, _⟩⟩
  have hne : als ++ path ++ fn ≠ [] := by
    rw [hfn]
    intro he
    rcases List.append_eq_nil.mp he with ⟨_, h2⟩
    exact List.noConfusion h2
  have hlt : (fn.drop 1).length < (als ++ path ++ fn).length := by
    rw [hfn]
    simp only [List.drop_succ_cons, List.drop_zero, List.length_append,
      List.length_cons]
    omega
  exact ⟨hne, hlt, replaceAllL_length_lt hne hlt ⟨u, v, huv⟩⟩

/-- For a word-character alias, fuel exceeding the line length brings the
search-replace loop to a state with no further match: the while-loop of
the resolver terminates in at most length-many iterations. -/
theorem resolveLineGo_terminates {als : List Char}
    (hw : ∀ c ∈ als, isWordChar c = true) :
    ∀ (n : Nat) (s : List Char) (m : DiMap), s.length < n →
      searchAlias als (resolveLineGo als n s m).1 = none
  | 0, s, _, hn => absurd hn (by omega)
  | Nat.succ k, s, m, hn => by
    rcases hs : searchAlias als s with _ | r
    · simp only [resolveLineGo, hs]
    · obtain ⟨path, fn⟩ := r
      simp only [resolveLineGo, hs]
      have hlen := (resolve_replace_shortens hw hs).2.2
      exact resolveLineGo_terminates hw k _ _ (by omega)

/-- C7: on every candidate line the search-replace loop of the resolver
terminates.  Formally, for an alias consisting of word characters (the
only aliases with candidate lines, since the usage index is keyed by word
tokens): each successful match replaces the non-empty matched text
alias ++ path ++ fn with the strictly shorter bare symbol, strictly
shortening the line, so fuel exceeding the line length already reaches the
no-match exit of the while loop. -/
theorem claim_C7 (als s : List Char)
    (hw : ∀ c ∈ als, isWordChar c = true) :
    (∀ path fn, searchAlias als s = some (path, fn) →
      als ++ path ++ fn ≠ [] ∧
      (fn.drop 1).length < (als ++ path ++ fn).length ∧
      (replaceAllL (als ++ path ++ fn) (fn.drop 1) s).length < s.length) ∧
    (∀ fuel m, s.length < fuel →
      searchAlias als (resolveLineGo als fuel s m).1 = none) :=
  ⟨fun _ _ h => resolve_replace_shortens hw h,
   fun fuel m hf => resolveLineGo_terminates hw fuel s m hf⟩

/-- Witness for C7: the loop on the line x.a(x.b.c) with alias x reaches
the no-match state within the fuel bound. -/
theorem claim_C7_witness :
    (∀ c ∈ ['x'], isWordChar c = true) ∧
    searchAlias ['x']
      (resolveLineGo ['x'] 11 "x.a(x.b.c)".toList []).1 = none :=
  ⟨by decide,
   (claim_C7 ['x'] "x.a(x.b.c)".toList (by decide)).2 11 [] (by decide)⟩

/-- rstrip on character lists is dropping trailing characters. -/
theorem rstripL_eq_rdropWhile (l : List Char) :
    rstripL l = List.rdropWhile isSpacePy l := rfl

/-- rstrip is idempotent. -/
theorem rstripL_idem (l : List Char) : rstripL (rstripL l) = rstripL l := by
  rw [rstripL_eq_rdropWhile, rstripL_eq_rdropWhile]
  exact List.rdropWhile_idempotent _ _

/-- A word character is not whitespace. -/
theorem word_not_space {c : Char} (h : isWordChar c = true) :
    isSpacePy c = false := by
  cases hsp : isSpacePy c
  · rfl
  · exfalso
    unfold isSpacePy at hsp
    simp only [Bool.or_eq_true, decide_eq_true_eq] at hsp
    rcases hsp with ((((h1 | h1) | h1) | h1) | h1) | h1 <;>
      (rw [h1] at h; exact absurd h (by decide))

/-- A non-empty list ending in a non-whitespace character is rstrip-fixed,
and conversely. -/
theorem rstripL_fix_iff {l : List Char} :
    rstripL l = l ↔ ∀ hl : l ≠ [], isSpacePy (l.getLast hl) = false := by
  rw [rstripL_eq_rdropWhile]
  rw [List.rdropWhile_eq_self_iff]
  constructor
  · intro h hl
    exact Bool.eq_false_iff.mpr (h hl)
  · intro h hl
    rw [h hl]
    exact Bool.false_ne_true

/-- A non-empty list of word characters is rstrip-fixed. -/
theorem rstripL_fix_of_word {l : List Char}
    (h : ∀ c ∈ l, isWordChar c = true) : rstripL l = l := by
  rw [rstripL_fix_iff]
  intro hl
  exact word_not_space (h _ (List.getLast_mem hl))

/-- Appending a non-empty rstrip-fixed tail keeps a list rstrip-fixed. -/
theorem rstripL_fix_append {a b : List Char} (hb : b ≠ [])
    (h : rstripL b = b) : rstripL (a ++ b) = a ++ b := by
  rw [rstripL_fix_iff] at h ⊢
  intro hl
  rw [List.getLast_append_of_ne_nil hb]
  exact h hb

/-- A cons onto a non-empty rstrip-fixed tail is rstrip-fixed. -/
theorem rstripL_fix_cons {c : Char} {b : List Char} (hb : b ≠ [])
    (h : rstripL b = b) : rstripL (c :: b) = c :: b :=
  rstripL_fix_append (a := [c]) hb h

/-- The tail of a rstrip-fixed list is rstrip-fixed. -/
theorem rstripL_fix_tail {c : Char} {b : List Char}
    (h : rstripL (c :: b) = c :: b) : rstripL b = b := by
  rw [rstripL_fix_iff] at h ⊢
  intro hl
  have := h (by simp)
  rwa [List.getLast_cons hl] at this

/-- Dropping a prefix of a rstrip-fixed list keeps it rstrip-fixed. -/
theorem rstripL_fix_drop {l : List Char} (n : Nat)
    (h : rstripL l = l) : rstripL (l.drop n) = l.drop n := by
  rcases hd : l.drop n with _ | ⟨c, rest⟩
  · rfl
  · have hne : l.drop n ≠ [] := by rw [hd]; simp
    have hl : l ≠ [] := by
      intro he
      rw [he] at hd
      simp at hd
    rw [← hd]
    rw [rstripL_fix_iff] at h ⊢
    intro hne2
    rw [List.getLast_drop]
    exact h _

/-- Splitting always yields at least one piece. -/
theorem splitChar_ne_nil (sep : Char) : ∀ (l : List Char),
    splitChar sep l ≠ []
  | [] => by simp [splitChar]
  | c :: cs => by
    unfold splitChar
    by_cases hc : c = sep
    · rw [if_pos hc]
      simp
    · rw [if_neg hc]
      simp

/-- The head with default of a non-empty list is a member. -/
theorem headD_mem {l : List α} (h : l ≠ []) (d : α) : l.headD d ∈ l := by
  cases l with
  | nil => exact absurd rfl h
  | cons a rest => exact List.mem_cons_self a rest

/-- Head with default looks only at a non-empty first part. -/
theorem headD_append_ne {l1 l2 : List α} (h : l1 ≠ []) (d : α) :
    (l1 ++ l2).headD d = l1.headD d := by
  cases l1 with
  | nil => exact absurd rfl h
  | cons a rest => rfl

/-- Tail distributes over an append with a non-empty first part. -/
theorem tail_append_ne {l1 l2 : List α} (h : l1 ≠ []) :
    (l1 ++ l2).tail = l1.tail ++ l2 := by
  cases l1 with
  | nil => exact absurd rfl h
  | cons a rest => rfl

/-- Splitting never merges across an explicit separator. -/
theorem splitChar_append_sep (sep : Char) : ∀ (l1 l2 : List Char),
    splitChar sep (l1 ++ sep :: l2) = splitChar sep l1 ++ splitChar sep l2
  | [], l2 => by
    show splitChar sep (sep :: l2) = [[]] ++ splitChar sep l2
    conv_lhs => rw [splitChar]
    rw [if_pos rfl]
    rfl
  | c :: l1, l2 => by
    by_cases hc : c = sep
    · show splitChar sep (c :: (l1 ++ sep :: l2)) = _
      conv_lhs => rw [splitChar]
      conv_rhs => rw [splitChar]
      rw [if_pos hc, if_pos hc, splitChar_append_sep sep l1 l2]
      rfl
    · show splitChar sep (c :: (l1 ++ sep :: l2)) = _
      conv_lhs => rw [splitChar]
      conv_rhs => rw [splitChar]
      rw [if_neg hc, if_neg hc, splitChar_append_sep sep l1 l2]
      rw [headD_append_ne (splitChar_ne_nil sep l1) []]
      rw [tail_append_ne (splitChar_ne_nil sep l1)]
      rfl

/-- No piece of a split contains the separator. -/
theorem splitChar_no_sep (sep : Char) : ∀ (l : List Char),
    ∀ piece ∈ splitChar sep l, sep ∉ piece
  | [], piece, hmem, hsep => by
    simp only [splitChar, List.mem_singleton] at hmem
    rw [hmem] at hsep
    cases hsep
  | c :: cs, piece, hmem, hsep => by
    unfold splitChar at hmem
    by_cases hc : c = sep
    · rw [if_pos hc] at hmem
      rcases List.mem_cons.mp hmem with rfl | hmem2
      · cases hsep
      · exact splitChar_no_sep sep cs piece hmem2 hsep
    · rw [if_neg hc] at hmem
      rcases List.mem_cons.mp hmem with rfl | hmem2
      · rcases List.mem_cons.mp hsep with rfl | hsep2
        · exact hc rfl
        · exact splitChar_no_sep sep cs _
            (headD_mem (splitChar_ne_nil sep cs) []) hsep2
      · exact splitChar_no_sep sep cs piece
          (List.mem_of_mem_tail hmem2) hsep

/-- A list without the separator splits into itself alone. -/
theorem splitChar_eq_self (sep : Char) : ∀ (l : List Char), sep ∉ l →
    splitChar sep l = [l]
  | [], _ => rfl
  | c :: cs, hns => by
    have hc : ¬(c = sep) := fun he => hns (he ▸ List.mem_cons_self c cs)
    have ih := splitChar_eq_self sep cs
      (fun hm => hns (List.mem_cons_of_mem c hm))
    unfold splitChar
    rw [if_neg hc, ih]
    rfl

/-- Splitting a separator-joined list recovers the split pieces of the
parts. -/
theorem splitChar_joinSep (sep : Char) : ∀ (l : List (List Char)),
    l ≠ [] →
    splitChar sep (joinSep [sep] l) = (l.map (splitChar sep)).flatten
  | [x], _ => by
    show splitChar sep x = _
    simp
  | x :: y :: rest, _ => by
    show splitChar sep (x ++ [sep] ++ joinSep [sep] (y :: rest)) = _
    rw [List.append_assoc, List.singleton_append, splitChar_append_sep,
      splitChar_joinSep sep (y :: rest) (by simp)]
    simp

/-- Every identifier token is a non-empty run of word characters. -/
theorem tokensGo_word : ∀ (fuel : Nat) (l : List Char) (t : String),
    t ∈ tokensGo fuel l →
    t.toList ≠ [] ∧ ∀ c ∈ t.toList, isWordChar c = true
  | 0, l, t, hmem => by simp [tokensGo] at hmem
  | Nat.succ k, [], t, hmem => by simp [tokensGo] at hmem
  | Nat.succ k, c :: cs, t, hmem => by
    unfold tokensGo at hmem
    by_cases hc : isWordChar c = true
    · rw [if_pos hc] at hmem
      rcases List.mem_cons.mp hmem with rfl | hmem2
      · constructor
        · show (c :: cs).takeWhile isWordChar ≠ []
          rw [List.takeWhile_cons_of_pos hc]
          simp
        · intro x hx
          exact List.mem_takeWhile_imp hx
      · exact tokensGo_word k _ t hmem2
    · rw [if_neg hc] at hmem
      exact tokensGo_word k cs t hmem

/-- Every token of the usage scanner is a non-empty word-character run. -/
theorem splitIdents_word {line t : String} (h : t ∈ splitIdents line) :
    t.toList ≠ [] ∧ ∀ c ∈ t.toList, isWordChar c = true :=
  tokensGo_word _ _ t h

/-- With a non-empty replacement, replacement output is empty only on
empty input. -/
theorem replaceGo_eq_nil {tgt rep : List Char} (hrep : rep ≠ []) :
    ∀ (fuel : Nat) (s : List Char), replaceGo tgt rep fuel s = [] → s = []
  | 0, s, h => h
  | Nat.succ k, [], _ => rfl
  | Nat.succ k, c :: rest, h => by
    unfold replaceGo at h
    by_cases hp : (!tgt.isEmpty && tgt.isPrefixOf (c :: rest)) = true
    · rw [if_pos hp] at h
      rcases List.append_eq_nil.mp h with ⟨h1, _⟩
      exact absurd h1 hrep
    · rw [if_neg hp] at h
      exact List.noConfusion h

/-- Every character of the replacement output comes from the input or
from the replacement string. -/
theorem replaceGo_subset {tgt rep : List Char} :
    ∀ (fuel : Nat) (s : List Char) (x : Char),
      x ∈ replaceGo tgt rep fuel s → x ∈ s ∨ x ∈ rep
  | 0, s, x, h => Or.inl h
  | Nat.succ k, [], x, h => by cases h
  | Nat.succ k, c :: rest, x, h => by
    unfold replaceGo at h
    by_cases hp : (!tgt.isEmpty && tgt.isPrefixOf (c :: rest)) = true
    · rw [if_pos hp] at h
      rcases List.mem_append.mp h with h1 | h2
      · exact Or.inr h1
      · rcases replaceGo_subset k _ x h2 with h3 | h3
        · exact Or.inl (List.drop_subset _ _ h3)
        · exact Or.inr h3
    · rw [if_neg hp] at h
      rcases List.mem_cons.mp h with rfl | h2
      · exact Or.inl (List.mem_cons_self _ _)
      · rcases replaceGo_subset k rest x h2 with h3 | h3
        · exact Or.inl (List.mem_cons_of_mem _ h3)
        · exact Or.inr h3

/-- Replacing by a non-empty rstrip-fixed string inside a rstrip-fixed line
keeps the line rstrip-fixed: the output never gains trailing whitespace. -/
theorem replaceGo_rstrip_fix (tgt rep : List Char) (hrep : rep ≠ [])
    (hrepP : rstripL rep = rep) :
    ∀ (fuel : Nat) (s : List Char), rstripL s = s →
      rstripL (replaceGo tgt rep fuel s) = replaceGo tgt rep fuel s
  | 0, _, hs => hs
  | Nat.succ k, [], _ => rfl
  | Nat.succ k, c :: rest, hs => by
    unfold replaceGo
    by_cases hp : (!tgt.isEmpty && tgt.isPrefixOf (c :: rest)) = true
    · rw [if_pos hp]
      have hdropP : rstripL (List.drop tgt.length (c :: rest)) =
          List.drop tgt.length (c :: rest) := rstripL_fix_drop _ hs
      have hrec := replaceGo_rstrip_fix tgt rep hrep hrepP k
        (List.drop tgt.length (c :: rest)) hdropP
      rcases hr : replaceGo tgt rep k (List.drop tgt.length (c :: rest)) with
        _ | ⟨d, ds⟩
      · rw [List.append_nil]
        exact hrepP
      · rw [hr] at hrec
        exact rstripL_fix_append (by simp) hrec
    · rw [if_neg hp]
      have hrestP : rstripL rest = rest := rstripL_fix_tail hs
      have hrec := replaceGo_rstrip_fix tgt rep hrep hrepP k rest hrestP
      rcases hrr : replaceGo tgt rep k rest with _ | ⟨d, ds⟩
      · have hre : rest = [] := replaceGo_eq_nil hrep k rest hrr
        rw [hre] at hs
        exact hs
      · rw [hrr] at hrec
        exact rstripL_fix_cons (by simp) hrec

/-- Every character of the matched path group is a dot or a word
character. -/
theorem chainHere_path_chars {suf path fn : List Char}
    (h : chainHere suf = some (path, fn)) :
    ∀ c ∈ path, c = '.' ∨ isWordChar c = true := by
  unfold chainHere at h
  by_cases hs : (segsFrom suf).isEmpty
  · rw [if_pos hs] at h
    exact Option.noConfusion h
  · rw [if_neg hs] at h
    have hpair := Option.some_inj.mp h
    have hpath : path = (segsFrom suf).dropLast.flatten :=
      (congrArg Prod.fst hpair).symm
    intro c hc
    rw [hpath] at hc
    rcases List.mem_flatten.mp hc with ⟨seg, hseg, hcseg⟩
    have hseg2 : seg ∈ segsFrom suf := (List.dropLast_sublist _).subset hseg
    rcases (segsGo_spec suf.length suf).2 seg hseg2 with ⟨t, rfl, _, htw⟩
    rcases List.mem_cons.mp hcseg with rfl | hct
    · exact Or.inl rfl
    · exact Or.inr (htw c hct)

/-- Every character of a path group returned by the search is a dot or a
word character. -/
theorem searchAlias_path_chars {als s path fn : List Char}
    (h : searchAlias als s = some (path, fn)) :
    ∀ c ∈ path, c = '.' ∨ isWordChar c = true := by
  rcases searchAliasGo_spec als s [] path fn h with ⟨_, _, _, _, h2⟩
  exact chainHere_path_chars h2

/-- A non-empty all-word-character string: the shape of every recorded
symbol. -/
def wordStr (t : String) : Prop :=
  t.toList ≠ [] ∧ ∀ c ∈ t.toList, isWordChar c = true

/-- A non-empty dotted-identifier string: the shape of every recorded
resolved-module key. -/
def keyStr (k : String) : Prop :=
  k.toList ≠ [] ∧ ∀ c ∈ k.toList, c = '.' ∨ isWordChar c = true

/-- Structural invariant of the DirectImportSet: dotted-identifier keys,
each with a non-empty list of non-empty word-character symbols. -/
def DiOK (m : DiMap) : Prop :=
  ∀ p ∈ m, keyStr p.1 ∧ p.2 ≠ [] ∧ ∀ v ∈ p.2, wordStr v

/-- Adding a well-shaped key and symbol preserves the invariant. -/
theorem diAdd_DiOK : ∀ {m : DiMap} {k v : String}, DiOK m → keyStr k →
    wordStr v → DiOK (diAdd m k v)
  | [], k, v, _, hk, hv => by
    intro p hp
    rw [List.mem_singleton.mp hp]
    refine ⟨hk, by simp, ?_⟩
    intro w hw
    rw [List.mem_singleton.mp hw]
    exact hv
  | (k0, vs) :: rest, k, v, hm, hk, hv => by
    have hhead := hm (k0, vs) (List.mem_cons_self _ _)
    have htail : DiOK rest := fun p hp => hm p (List.mem_cons_of_mem _ hp)
    unfold diAdd
    by_cases hkk : k0 = k
    · rw [if_pos hkk]
      intro p hp
      rcases List.mem_cons.mp hp with rfl | hp2
      · refine ⟨hhead.1, ?_, ?_⟩
        · by_cases hvin : v ∈ vs
          · rw [if_pos hvin]
            exact hhead.2.1
          · rw [if_neg hvin]
            simp
        · intro w hw
          by_cases hvin : v ∈ vs
          · rw [if_pos hvin] at hw
            exact hhead.2.2 w hw
          · rw [if_neg hvin] at hw
            rcases List.mem_append.mp hw with h1 | h2
            · exact hhead.2.2 w h1
            · rw [List.mem_singleton.mp h2]
              exact hv
      · exact htail p hp2
    · rw [if_neg hkk]
      intro p hp
      rcases List.mem_cons.mp hp with rfl | hp2
      · exact hhead
      · exact diAdd_DiOK htail hk hv p hp2

/-- The resolver loop keeps the line rstrip-fixed and newline-free and
keeps the DirectImportSet well shaped, for a non-empty word alias. -/
theorem resolveLineGo_inv {als : List Char} (hals : als ≠ [])
    (hw : ∀ c ∈ als, isWordChar c = true) :
    ∀ (fuel : Nat) (s : List Char) (m : DiMap),
      rstripL s = s → '\n' ∉ s → DiOK m →
      rstripL (resolveLineGo als fuel s m).1 =
        (resolveLineGo als fuel s m).1 ∧
      '\n' ∉ (resolveLineGo als fuel s m).1 ∧
      DiOK (resolveLineGo als fuel s m).2
  | 0, s, m, hs, hn, hm => ⟨hs, hn, hm⟩
  | Nat.succ k, s, m, hs, hn, hm => by
    rcases hsearch : searchAlias als s with _ | ⟨path, fn⟩
    · simp only [resolveLineGo, hsearch]
      exact ⟨hs, hn, hm⟩
    · simp only [resolveLineGo, hsearch]
      rcases searchAlias_decomp hw hsearch with ⟨_, ⟨t, hfn, htne, htw⟩⟩
      have hpathc := searchAlias_path_chars hsearch
      have hfn1 : fn.drop 1 = t := by rw [hfn]; rfl
      have htP : rstripL t = t := rstripL_fix_of_word htw
      have htnl : ('\n' : Char) ∉ t := by
        intro hmem
        exact absurd (htw _ hmem) (by decide)
      have hsP : rstripL (replaceAllL (als ++ path ++ fn) (fn.drop 1) s) =
          replaceAllL (als ++ path ++ fn) (fn.drop 1) s := by
        rw [hfn1]
        exact replaceGo_rstrip_fix (als ++ path ++ fn) t htne htP s.length s hs
      have hsnl : ('\n' : Char) ∉
          replaceAllL (als ++ path ++ fn) (fn.drop 1) s := by
        intro hmem
        rw [hfn1] at hmem
        rcases replaceGo_subset s.length s '\n' hmem with h1 | h2
        · exact hn h1
        · exact htnl h2
      have hm1 : DiOK (if als ++ path ≠ als then
          diAdd m (String.mk (als ++ path)) (String.mk (fn.drop 1))
          else diAdd m (String.mk als) (String.mk (fn.drop 1))) := by
        have hv : wordStr (String.mk (fn.drop 1)) := by
          rw [hfn1]
          exact ⟨htne, htw⟩
        split
        · apply diAdd_DiOK hm _ hv
          refine ⟨?_, ?_⟩
          · show als ++ path ≠ []
            intro he
            exact hals (List.append_eq_nil.mp he).1
          · intro c hc
            rcases List.mem_append.mp hc with h1 | h2
            · exact Or.inr (hw c h1)
            · exact hpathc c h2
        · apply diAdd_DiOK hm _ hv
          refine ⟨?_, ?_⟩
          · show als ≠ []
            exact hals
          · intro c hc
            exact Or.inr (hw c hc)
      exact resolveLineGo_inv hals hw k _ _ hsP hsnl hm1

/-- Buffer invariant during resolution: every line is rstrip-fixed and
newline-free. -/
def BufLineOK (d : List String) : Prop :=
  ∀ e ∈ d, rstripL e.toList = e.toList ∧ '\n' ∉ e.toList

/-- Reading any position of such a buffer yields such a line (the default
for an out-of-range read is the empty line). -/
theorem getD_LineOK {d : List String} (h : BufLineOK d) (p : Nat) :
    rstripL (d.getD p "").toList = (d.getD p "").toList ∧
    '\n' ∉ (d.getD p "").toList := by
  rcases he : d[p]? with _ | e
  · have hd : d.getD p "" = "" := by
      simp [List.getD, he]
    rw [hd]
    exact ⟨rfl, by simp⟩
  · have hmem : e ∈ d := List.getElem?_mem he
    have hd : d.getD p "" = e := by
      simp [List.getD, he]
    rw [hd]
    exact h e hmem

/-- The per-alias loop preserves the buffer and DirectImportSet
invariants. -/
theorem resolvePlaces_inv {als : String} (hals : als.toList ≠ [])
    (hw : ∀ c ∈ als.toList, isWordChar c = true) :
    ∀ (places : List Nat) (st : List String × DiMap),
      BufLineOK st.1 → DiOK st.2 →
      BufLineOK (resolvePlaces als places st).1 ∧
      DiOK (resolvePlaces als places st).2
  | [], st, hb, hm => ⟨hb, hm⟩
  | p :: ps, (d, m), hb, hm => by
    have hline := getD_LineOK hb p
    rcases hr : resolveLineGo als.toList ((d.getD p "").toList.length + 1)
        (d.getD p "").toList m with ⟨s1, m1⟩
    have hres := resolveLineGo_inv hals hw
      ((d.getD p "").toList.length + 1) (d.getD p "").toList m
      hline.1 hline.2 hm
    rw [hr] at hres
    unfold resolvePlaces
    rw [hr]
    apply resolvePlaces_inv hals hw ps
    · intro e he
      rcases List.mem_or_eq_of_mem_set he with h1 | h2
      · exact hb e h1
      · rw [h2]
        exact ⟨hres.1, hres.2.1⟩
    · exact hres.2.2

/-- The clause loop preserves the invariants, for a usage index whose
non-empty entries are keyed by word tokens. -/
theorem bdiItems_inv (fw : String → List Nat) (ikeys : List Nat)
    (hfw : ∀ w : String, fw w ≠ [] →
      w.toList ≠ [] ∧ ∀ c ∈ w.toList, isWordChar c = true) :
    ∀ (items : List (String × String)) (st : List String × DiMap),
      BufLineOK st.1 → DiOK st.2 →
      BufLineOK (bdiItems fw ikeys items st).1 ∧
      DiOK (bdiItems fw ikeys items st).2
  | [], st, hb, hm => ⟨hb, hm⟩
  | q :: rest, st, hb, hm => by
    unfold bdiItems
    have hst : BufLineOK (resolvePlaces q.2
        (((fw q.2).filter (fun j => !(ikeys.contains j))).dedup) st).1 ∧
        DiOK (resolvePlaces q.2
        (((fw q.2).filter (fun j => !(ikeys.contains j))).dedup) st).2 := by
      rcases hp : ((fw q.2).filter (fun j => !(ikeys.contains j))).dedup with
        _ | ⟨j, js⟩
      · exact ⟨hb, hm⟩
      · have hfwne : fw q.2 ≠ [] := by
          intro he
          rw [he] at hp
          simp at hp
        have hword := hfw q.2 hfwne
        exact resolvePlaces_inv hword.1 hword.2 (j :: js) st hb hm
    exact bdiItems_inv fw ikeys hfw rest _ hst.1 hst.2

/-- The import-line loop preserves the invariants. -/
theorem bdiGo_inv (fw : String → List Nat) (ikeys : List Nat)
    (hfw : ∀ w : String, fw w ≠ [] →
      w.toList ≠ [] ∧ ∀ c ∈ w.toList, isWordChar c = true) :
    ∀ (imps : List (Nat × List (String × String)))
      (st : List String × DiMap),
      BufLineOK st.1 → DiOK st.2 →
      BufLineOK (bdiGo fw ikeys imps st).1 ∧ DiOK (bdiGo fw ikeys imps st).2
  | [], st, hb, hm => ⟨hb, hm⟩
  | p :: rest, st, hb, hm => by
    unfold bdiGo
    have hst := bdiItems_inv fw ikeys hfw p.2 st hb hm
    exact bdiGo_inv fw ikeys hfw rest _ hst.1 hst.2

/-- The whole resolution pass preserves the invariants, starting from an
empty DirectImportSet. -/
theorem build_direct_imports_inv (data : List String)
    (imports : List (Nat × List (String × String)))
    (fw : String → List Nat)
    (hfw : ∀ w : String, fw w ≠ [] →
      w.toList ≠ [] ∧ ∀ c ∈ w.toList, isWordChar c = true)
    (hdata : BufLineOK data) :
    BufLineOK (build_direct_imports data imports fw).1 ∧
    DiOK (build_direct_imports data imports fw).2 := by
  unfold build_direct_imports
  split
  · exact ⟨hdata, fun p hp => absurd hp (List.not_mem_nil p)⟩
  · exact bdiGo_inv fw _ hfw imports (data, [])
      hdata (fun p hp => absurd hp (List.not_mem_nil p))

/-- Lines read from disk are rstrip-fixed and newline-free. -/
theorem dataOf_BufLineOK (content : String) : BufLineOK (dataOf content) := by
  intro e he
  unfold dataOf at he
  rcases List.mem_map.mp he with ⟨raw, hraw, rfl⟩
  unfold readLines at hraw
  rcases List.mem_map.mp hraw with ⟨piece, hpiece, rfl⟩
  have hpiece2 : piece ∈ splitChar '\n' content.toList := by
    by_cases hlast : ((splitChar '\n' content.toList).getLastD [' ']).isEmpty
    · rw [if_pos hlast] at hpiece
      exact (List.dropLast_sublist _).subset hpiece
    · rw [if_neg hlast] at hpiece
      exact hpiece
  have hnosep : ('\n' : Char) ∉ piece :=
    splitChar_no_sep '\n' content.toList piece hpiece2
  constructor
  · show rstripL (rstripL piece) = rstripL piece
    exact rstripL_idem piece
  · show ('\n' : Char) ∉ rstripL piece
    intro hmem
    have hsub : ('\n' : Char) ∈ piece := by
      have hpref : rstripL piece <+: piece := by
        rw [rstripL_eq_rdropWhile]
        exact List.rdropWhile_prefix _ _
      exact hpref.subset hmem
    exact hnosep hsub

/-- Sorted insertion only rearranges: members come from the insertion. -/
theorem insortStr_mem {x y : String} : ∀ {l : List String},
    y ∈ insortStr x l → y = x ∨ y ∈ l
  | [], h => Or.inl (List.mem_singleton.mp h)
  | z :: zs, h => by
    unfold insortStr at h
    by_cases hle : strLe x z = true
    · rw [if_pos hle] at h
      rcases List.mem_cons.mp h with rfl | h2
      · exact Or.inl rfl
      · exact Or.inr h2
    · rw [if_neg hle] at h
      rcases List.mem_cons.mp h with rfl | h2
      · exact Or.inr (List.mem_cons_self _ _)
      · rcases insortStr_mem h2 with h3 | h3
        · exact Or.inl h3
        · exact Or.inr (List.mem_cons_of_mem _ h3)

/-- Sorted insertion never yields an empty list. -/
theorem insortStr_ne_nil {x : String} : ∀ (l : List String),
    insortStr x l ≠ []
  | [] => by simp [insortStr]
  | z :: zs => by
    unfold insortStr
    split <;> simp

/-- Sorting only rearranges the symbols. -/
theorem sortStr_mem {y : String} : ∀ {l : List String},
    y ∈ sortStr l → y ∈ l
  | [], h => absurd h (List.not_mem_nil y)
  | x :: xs, h => by
    have h2 : y ∈ insortStr x (sortStr xs) := h
    rcases insortStr_mem h2 with rfl | h3
    · exact List.mem_cons_self _ _
    · exact List.mem_cons_of_mem _ (sortStr_mem h3)

/-- Sorting a non-empty symbol list yields a non-empty list. -/
theorem sortStr_ne_nil {l : List String} (h : l ≠ []) : sortStr l ≠ [] := by
  cases l with
  | nil => exact absurd rfl h
  | cons x xs => exact insortStr_ne_nil (sortStr xs)

/-- Sorted insertion of module entries only rearranges. -/
theorem insortPair_mem {x y : String × List String} :
    ∀ {l : List (String × List String)}, y ∈ insortPair x l → y = x ∨ y ∈ l
  | [], h => Or.inl (List.mem_singleton.mp h)
  | z :: zs, h => by
    unfold insortPair at h
    by_cases hle : strLe x.1 z.1 = true
    · rw [if_pos hle] at h
      rcases List.mem_cons.mp h with rfl | h2
      · exact Or.inl rfl
      · exact Or.inr h2
    · rw [if_neg hle] at h
      rcases List.mem_cons.mp h with rfl | h2
      · exact Or.inr (List.mem_cons_self _ _)
      · rcases insortPair_mem h2 with h3 | h3
        · exact Or.inl h3
        · exact Or.inr (List.mem_cons_of_mem _ h3)

/-- Sorting the DirectImportSet entries only rearranges them. -/
theorem sortPairs_mem {y : String × List String} :
    ∀ {l : List (String × List String)}, y ∈ sortPairs l → y ∈ l
  | [], h => absurd h (List.not_mem_nil y)
  | x :: xs, h => by
    have h2 : y ∈ insortPair x (sortPairs xs) := h
    rcases insortPair_mem h2 with rfl | h3
    · exact List.mem_cons_self _ _
    · exact List.mem_cons_of_mem _ (sortPairs_mem h3)

/-- A separator-join of non-empty rstrip-fixed pieces is non-empty and
rstrip-fixed. -/
theorem joinSep_fix (sep : List Char) : ∀ (l : List (List Char)), l ≠ [] →
    (∀ x ∈ l, x ≠ [] ∧ rstripL x = x) →
    joinSep sep l ≠ [] ∧ rstripL (joinSep sep l) = joinSep sep l
  | [x], _, hx =>
    ⟨(hx x (List.mem_singleton_self x)).1, (hx x (List.mem_singleton_self x)).2⟩
  | x :: y :: rest, _, hx => by
    have ih := joinSep_fix sep (y :: rest) (by simp)
      (fun z hz => hx z (List.mem_cons_of_mem _ hz))
    constructor
    · show x ++ sep ++ joinSep sep (y :: rest) ≠ []
      intro he
      rcases List.append_eq_nil.mp he with ⟨_, h2⟩
      exact ih.1 h2
    · show rstripL (x ++ sep ++ joinSep sep (y :: rest)) = _
      exact rstripL_fix_append ih.1 ih.2

/-- Every character of a separator-join comes from the separator or from
one of the pieces. -/
theorem mem_joinSep (sep : List Char) : ∀ (l : List (List Char)) (c : Char),
    c ∈ joinSep sep l → c ∈ sep ∨ ∃ x ∈ l, c ∈ x
  | [], c, h => by cases h
  | [x], c, h => Or.inr ⟨x, List.mem_singleton_self x, h⟩
  | x :: y :: rest, c, h => by
    have h0 : c ∈ x ++ sep ++ joinSep sep (y :: rest) := h
    rcases List.mem_append.mp h0 with h1 | h2
    · rcases List.mem_append.mp h1 with h3 | h4
      · exact Or.inr ⟨x, List.mem_cons_self _ _, h3⟩
      · exact Or.inl h4
    · rcases mem_joinSep sep (y :: rest) c h2 with h3 | ⟨z, hz, hcz⟩
      · exact Or.inl h3
      · exact Or.inr ⟨z, List.mem_cons_of_mem _ hz, hcz⟩

/-- A synthesized import statement is rstrip-fixed and newline-free. -/
theorem synthLine_LineOK {m : String} {fns : List String} (hk : keyStr m)
    (hfns : fns ≠ []) (hv : ∀ v ∈ fns, wordStr v) :
    rstripL (synthLine m fns).toList = (synthLine m fns).toList ∧
    '\n' ∉ (synthLine m fns).toList := by
  have hJ := joinSep_fix ", ".toList ((sortStr fns).map String.toList)
    (by
      intro he
      exact sortStr_ne_nil hfns (List.map_eq_nil_iff.mp he))
    (by
      intro x hx
      rcases List.mem_map.mp hx with ⟨v, hvmem, rfl⟩
      have hw := hv v (sortStr_mem hvmem)
      exact ⟨hw.1, rstripL_fix_of_word hw.2⟩)
  have htl : (synthLine m fns).toList =
      "from ".toList ++ m.toList ++ " import ".toList ++
        joinSep ", ".toList ((sortStr fns).map String.toList) := rfl
  rw [htl]
  constructor
  · exact rstripL_fix_append hJ.1 hJ.2
  · intro hmem
    rcases List.mem_append.mp hmem with h1 | h2
    · rcases List.mem_append.mp h1 with h3 | h4
      · rcases List.mem_append.mp h3 with h5 | h6
        · exact absurd h5 (by decide)
        · rcases hk.2 '\n' h6 with h7 | h7
          · exact absurd h7 (by decide)
          · exact absurd h7 (by decide)
      · exact absurd h4 (by decide)
    · rcases mem_joinSep _ _ _ h2 with h3 | ⟨x, hx, hcx⟩
      · exact absurd h3 (by decide)
      · rcases List.mem_map.mp hx with ⟨v, hvmem, rfl⟩
        have hw := hv v (sortStr_mem hvmem)
        exact absurd (hw.2 '\n' hcx) (by decide)

/-- Invariant of a rewritten buffer entry: every physical line inside it
is rstrip-fixed. -/
def EntryOK (e : String) : Prop :=
  ∀ piece ∈ splitChar '\n' e.toList, rstripL piece = piece

/-- A rstrip-fixed newline-free entry is a single rstrip-fixed physical
line. -/
theorem EntryOK_of_fix {e : String} (h1 : rstripL e.toList = e.toList)
    (h2 : '\n' ∉ e.toList) : EntryOK e := by
  intro piece hp
  rw [splitChar_eq_self '\n' e.toList h2] at hp
  rw [List.mem_singleton.mp hp]
  exact h1

/-- Prepending a synthesized line with an explicit newline to a good entry
yields a good entry. -/
theorem EntryOK_insert {di old : String}
    (hdi : rstripL di.toList = di.toList ∧ '\n' ∉ di.toList)
    (hold : EntryOK old) : EntryOK (di ++ "\n" ++ old) := by
  intro piece hp
  have htl : (di ++ "\n" ++ old).toList =
      di.toList ++ '\n' :: old.toList := by
    show (di.toList ++ ['\n']) ++ old.toList = _
    rw [List.append_assoc]
    rfl
  rw [htl, splitChar_append_sep '\n' di.toList old.toList] at hp
  rcases List.mem_append.mp hp with h1 | h2
  · exact EntryOK_of_fix hdi.1 hdi.2 piece h1
  · exact hold piece h2

/-- The synthesis fold keeps every buffer entry good, given a well-shaped
DirectImportSet. -/
theorem foldl_rdiStep_EntryOK {inv : List (String × Nat)}
    {ikeys : List Nat} :
    ∀ (entries : List (String × List String)) (d d2 : List String),
      (∀ p ∈ entries, keyStr p.1 ∧ p.2 ≠ [] ∧ ∀ v ∈ p.2, wordStr v) →
      (∀ e ∈ d, EntryOK e) →
      entries.foldl (rdiStep inv ikeys) (some d) = some d2 →
      ∀ e ∈ d2, EntryOK e
  | [], d, d2, _, hd, hfold => by
    rw [← Option.some_inj.mp hfold]
    exact hd
  | p :: rest, d, d2, hps, hd, hfold => by
    have hp := hps p (List.mem_cons_self _ _)
    have hdi := synthLine_LineOK hp.1 hp.2.1 hp.2.2
    rcases h1 : lookupLast inv p.1 with _ | i
    · rcases h2 : ikeys.max? with _ | mx
      · have hstep : rdiStep inv ikeys (some d) p = none := by
          simp only [rdiStep, h1, h2]
        rw [List.foldl_cons, hstep, foldl_rdiStep_none inv ikeys rest]
          at hfold
        exact Option.noConfusion hfold
      · rcases h3 : d.get? (mx + 1) with _ | old
        · have hstep : rdiStep inv ikeys (some d) p = none := by
            simp only [rdiStep, h1, h2, h3]
          rw [List.foldl_cons, hstep, foldl_rdiStep_none inv ikeys rest]
            at hfold
          exact Option.noConfusion hfold
        · have hstep : rdiStep inv ikeys (some d) p =
              some (d.set (mx + 1) (synthLine p.1 p.2 ++ "\n" ++ old)) := by
            simp only [rdiStep, h1, h2, h3]
          rw [List.foldl_cons, hstep] at hfold
          refine foldl_rdiStep_EntryOK rest _ d2
            (fun q hq => hps q (List.mem_cons_of_mem _ hq)) ?_ hfold
          intro e he
          rcases List.mem_or_eq_of_mem_set he with he1 | he2
          · exact hd e he1
          · rw [he2]
            have hold : EntryOK old := hd old (List.getElem?_mem
              (by rw [← List.get?_eq_getElem?]; exact h3))
            exact EntryOK_insert hdi hold
    · have hstep : rdiStep inv ikeys (some d) p =
          some (d.set i (synthLine p.1 p.2)) := by
        simp only [rdiStep, h1]
      rw [List.foldl_cons, hstep] at hfold
      refine foldl_rdiStep_EntryOK rest _ d2
        (fun q hq => hps q (List.mem_cons_of_mem _ hq)) ?_ hfold
      intro e he
      rcases List.mem_or_eq_of_mem_set he with he1 | he2
      · exact hd e he1
      · rw [he2]
        exact EntryOK_of_fix hdi.1 hdi.2

/-- A successful synthesis fold preserves the buffer length. -/
theorem foldl_rdiStep_length {inv : List (String × Nat)}
    {ikeys : List Nat} :
    ∀ (entries : List (String × List String)) (d d2 : List String),
      entries.foldl (rdiStep inv ikeys) (some d) = some d2 →
      d2.length = d.length
  | [], d, d2, h => by rw [← Option.some_inj.mp h]
  | p :: rest, d, d2, h => by
    rcases hstep : rdiStep inv ikeys (some d) p with _ | d1
    · rw [List.foldl_cons, hstep, foldl_rdiStep_none inv ikeys rest] at h
      exact Option.noConfusion h
    · rw [List.foldl_cons, hstep] at h
      rw [foldl_rdiStep_length rest d1 d2 h]
      exact rdiStep_some_length hstep

/-- C10: whenever the engine writes a file, every physical line of the
written content — rewritten or not — is rstrip-fixed, because every line
was right-stripped at read time and no later step introduces trailing
whitespace; consequently, whenever some raw input line carries trailing
whitespace (including a carriage return from a CRLF ending), the written
content differs from the original. -/
theorem claim_C10 (content out : String)
    (hrun : runEngine content = some (true, out)) :
    (∀ piece ∈ splitChar '\n' out.toList, rstripL piece = piece) ∧
    ((∃ l ∈ readLines content, rstrip l ≠ l) → out ≠ content) := by
  have hfw : ∀ w : String, fwOf content w ≠ [] →
      w.toList ≠ [] ∧ ∀ c ∈ w.toList, isWordChar c = true := by
    intro w hne
    rcases List.exists_mem_of_ne_nil _ hne with ⟨j, hj⟩
    rcases mem_file_words hj with ⟨l, _, _, htok⟩
    exact splitIdents_word htok
  have hres := build_direct_imports_inv (dataOf content) (importsOf content)
    (fwOf content) hfw (dataOf_BufLineOK content)
  rcases hrep : replace_direct_imports (resolvedOf content).2 (invOf content)
      (ikeysOf content) (resolvedOf content).1 with _ | d2
  · unfold runEngine at hrun
    rw [hrep] at hrun
    exact Option.noConfusion hrun
  · unfold runEngine at hrun
    rw [hrep] at hrun
    by_cases hde : (resolvedOf content).2.isEmpty = true
    · simp only [hde, if_true, Option.some.injEq, Prod.mk.injEq] at hrun
      exact absurd hrun.1 (by decide)
    · have hde2 : (resolvedOf content).2.isEmpty = false :=
        Bool.eq_false_iff.mpr hde
      simp only [hde2, Bool.false_eq_true, if_false, Option.some.injEq,
        Prod.mk.injEq] at hrun
      have hout : out =
          String.mk (joinSep ['\n'] (d2.map String.toList)) ++ "\n" :=
        hrun.2.symm
      have hrep2 : (sortPairs (resolvedOf content).2).foldl
          (rdiStep (invOf content) (ikeysOf content))
          (some (resolvedOf content).1) = some d2 := hrep
      have hd2 : ∀ e ∈ d2, EntryOK e := by
        refine foldl_rdiStep_EntryOK _ _ d2 ?_ ?_ hrep2
        · intro p hp
          exact hres.2 p (sortPairs_mem hp)
        · intro e he
          exact EntryOK_of_fix (hres.1 e he).1 (hres.1 e he).2
      have hd2ne : d2 ≠ [] := by
        have hdimap : (resolvedOf content).2 ≠ [] := by
          intro hnil
          apply hde
          rw [hnil]
          rfl
        have himp : importsOf content ≠ [] := by
          intro himp0
          apply hdimap
          show (build_direct_imports (dataOf content) (importsOf content)
            (fwOf content)).2 = []
          rw [himp0]
          rfl
        have hdata_ne : dataOf content ≠ [] := by
          intro hde2
          apply himp
          unfold importsOf linesOf build_valid_lines
          rw [hde2]
          rfl
        have hlen : d2.length = (dataOf content).length := by
          rw [foldl_rdiStep_length _ _ d2 hrep2]
          exact build_direct_imports_length _ _ _
        intro hnil
        rw [hnil] at hlen
        exact hdata_ne (List.eq_nil_of_length_eq_zero hlen.symm)
      have houtLst : out.toList =
          joinSep ['\n'] (d2.map String.toList) ++ '\n' :: [] := by
        rw [hout]
        rfl
      have hA : ∀ piece ∈ splitChar '\n' out.toList, rstripL piece = piece := by
        intro piece hp
        rw [houtLst, splitChar_append_sep '\n' _ [],
          splitChar_joinSep '\n' (d2.map String.toList)
            (fun he => hd2ne (List.map_eq_nil_iff.mp he))] at hp
        rcases List.mem_append.mp hp with h1 | h2
        · rcases List.mem_flatten.mp h1 with ⟨inner, hin, hpin⟩
          rcases List.mem_map.mp hin with ⟨x, hx, rfl⟩
          rcases List.mem_map.mp hx with ⟨e, he, rfl⟩
          exact hd2 e he piece hpin
        · have : piece = [] := by
            simpa [splitChar] using h2
          rw [this]
          rfl
      refine ⟨hA, ?_⟩
      rintro ⟨l, hl, hlns⟩ heq
      apply hlns
      unfold readLines at hl
      rcases List.mem_map.mp hl with ⟨piece, hpiece, rfl⟩
      have hpiece2 : piece ∈ splitChar '\n' content.toList := by
        by_cases hlast :
            ((splitChar '\n' content.toList).getLastD [' ']).isEmpty = true
        · rw [if_pos hlast] at hpiece
          exact (List.dropLast_sublist _).subset hpiece
        · rw [if_neg hlast] at hpiece
          exact hpiece
      have hfix : rstripL piece = piece := by
        apply hA
        rw [heq]
        exact hpiece2
      show rstrip (String.mk piece) = String.mk piece
      exact congrArg String.mk hfix

/-- Witness for C10: a file with a trailing-space line that the rewrite
never touches; the written output has every physical line rstrip-fixed and
differs from the original content. -/
theorem claim_C10_witness :
    (∃ l ∈ readLines "import alpha as a\ny = 1 \na.b\n", rstrip l ≠ l) ∧
    (∀ piece ∈ splitChar '\n'
        ("import alpha as a\nfrom a import b\ny = 1\nb\n" : String).toList,
        rstripL piece = piece) ∧
    ("import alpha as a\nfrom a import b\ny = 1\nb\n" : String) ≠
      "import alpha as a\ny = 1 \na.b\n" :=
  ⟨by decide,
   (claim_C10 "import alpha as a\ny = 1 \na.b\n"
     "import alpha as a\nfrom a import b\ny = 1\nb\n" rfl).1,
   (claim_C10 "import alpha as a\ny = 1 \na.b\n"
     "import alpha as a\nfrom a import b\ny = 1\nb\n" rfl).2 (by decide)⟩
